import Mathlib

/-
  Verification development for the TailorLoom CSV-mapping and
  identity-stitching core.

  The definitions below are a shallow embedding of the TypeScript sources:
    - src/lib/csv/heuristic-mapper.ts   (header normalizer, Dice coefficient,
                                         mapping suggestion engine)
    - src/lib/csv/detect-source.ts      (confident-detection gate)
    - src/lib/csv/validators.ts         (currency/number parsing, row validation)
    - status normalization maps         (normalizeStatus)
    - src/lib/stitching/matcher.ts      (identity stitcher)

  Conventions of the embedding:
    - JavaScript numbers are modelled as rationals; the special values of
      parseFloat are modelled explicitly by the JsNum type (finite rational,
      positive infinity, negative infinity; NaN is Option.none).
    - JavaScript strings are Lean String values; character classes of the
      regexes involved are restricted to their ASCII meaning.
    - A JavaScript Map in insertion order is an association list; Map.set
      overwrites in place or appends, Map.delete removes the key.
    - A JavaScript RegExp used only through RegExp.test is modelled as an
      abstract Boolean predicate on strings.
    - The Supabase persistence collaborator is modelled by an explicit Store
      record; each query of the stitcher is translated row by row.
-/

namespace TailorLoom

set_option maxRecDepth 4000

/-! ### JavaScript string primitives -/

/-- The ASCII part of the JavaScript whitespace class backslash-s. -/
def isSpaceJS (c : Char) : Bool :=
  c == ' ' || c == '\t' || c == '\n' || c == '\r' || c.toNat == 11 || c.toNat == 12

/-- JavaScript String.prototype.toLowerCase, restricted to ASCII letters. -/
def toLowerJS (s : String) : String :=
  String.mk (s.data.map Char.toLower)

/-- JavaScript String.prototype.trim (strip leading and trailing whitespace). -/
def trimJS (s : String) : String :=
  String.mk (((s.data.dropWhile isSpaceJS).reverse.dropWhile isSpaceJS).reverse)

/-! ### Association lists: JavaScript Map / plain-object model -/

/-- Map.get — first binding of the key. -/
def alistGet {β : Type} : List (String × β) → String → Option β
  | [], _ => Option.none
  | (k, v) :: rest, q => if q = k then some v else alistGet rest q

/-- Map.set — overwrite in place when the key exists, append otherwise. -/
def alistSet {β : Type} : List (String × β) → String → β → List (String × β)
  | [], q, v => [(q, v)]
  | (k, w) :: rest, q, v =>
    if q = k then (q, v) :: rest else (k, w) :: alistSet rest q v

/-- Map.delete — remove the binding of the key. -/
def alistDelete {β : Type} : List (String × β) → String → List (String × β)
  | [], _ => []
  | (k, w) :: rest, q => if q = k then rest else (k, w) :: alistDelete rest q

/-- The keys of an association list, in order. -/
def keysOf {β : Type} (l : List (String × β)) : List String :=
  l.map Prod.fst

/-! ### Data model (src/lib/types/csv.ts) -/

inductive FieldType where
  | text
  | email
  | number
  | currency
  | date
  | timestamp
  | enum
deriving DecidableEq, Repr

structure SchemaField where
  key : String
  label : String
  type : FieldType
  required : Bool
  aliases : List String
  /-- samplePattern?: RegExp — modelled as an abstract test predicate. -/
  samplePattern : Option (String → Bool)
  enumValues : Option (List String)

structure SourceSchema where
  source : String
  label : String
  fields : List SchemaField
  idField : String
  emailField : String
  nameField : String

inductive MatchType where
  | exactM
  | aliasM
  | similarity
  | pattern
  | noneM
deriving DecidableEq, Repr

structure MappingSuggestion where
  csvHeader : String
  schemaField : Option String
  confidence : ℚ
  matchType : MatchType
deriving DecidableEq, Repr

/-- A raw CSV row: Record of string to string. -/
abbrev RawRow := List (String × String)

/-! ### Header normalizer (heuristic-mapper.ts, normalizeHeader) -/

/-- Collapse runs of whitespace to a single space (replace backslash-s+ by one space). -/
def collapseSpaces : List Char → List Char
  | [] => []
  | c :: rest =>
    if isSpaceJS c then
      ' ' :: collapseSpaces (rest.dropWhile isSpaceJS)
    else
      c :: collapseSpaces rest
termination_by l => l.length
decreasing_by
  · have := (List.dropWhile_sublist (l := rest) isSpaceJS).length_le
    simp only [List.length_cons]
    omega
  · simp only [List.length_cons]
    omega

/-- normalizeHeader: lowercase, strip every character that is not a lowercase
    letter, digit or whitespace, collapse whitespace runs, trim. -/
def normalizeHeader (header : String) : String :=
  let lowered := (toLowerJS header).data
  let stripped := lowered.filter
    (fun c => ('a' ≤ c && c ≤ 'z') || ('0' ≤ c && c ≤ '9') || isSpaceJS c)
  trimJS (String.mk (collapseSpaces stripped))

/-! ### Dice coefficient (heuristic-mapper.ts, diceCoefficient) -/

/-- The character bigrams of a string, in order (a.slice(i, i+2) for each i). -/
def bigramList (l : List Char) : List (Char × Char) :=
  l.zip l.tail

/-- Remove the first occurrence of a bigram (decrement its stored count). -/
def eraseFirst : List (Char × Char) → (Char × Char) → List (Char × Char)
  | [], _ => []
  | x :: xs, g => if x = g then xs else x :: eraseFirst xs g

/-- The scan loop of diceCoefficient: for each bigram of b, consume one
    occurrence from the bigram multiset of a when available, counting the
    matches.  The Map of counts of the source is the list s: a stored count n
    is n occurrences in s, get-and-decrement is membership test and erase. -/
def consumeCount : List (Char × Char) → List (Char × Char) → ℕ
  | _, [] => 0
  | s, g :: gs => if g ∈ s then consumeCount (eraseFirst s g) gs + 1 else consumeCount s gs

/-- diceCoefficient — bigram similarity between two strings, in [0,1]. -/
def diceCoefficient (a b : String) : ℚ :=
  if a = b then 1
  else if a.length < 2 ∨ b.length < 2 then 0
  else
    let intersection := consumeCount (bigramList a.data) (bigramList b.data)
    (2 * intersection : ℚ) / (((a.length - 1) + (b.length - 1) : ℕ) : ℚ)

/-! ### Sample-pattern scorer (heuristic-mapper.ts, checkSamplePattern) -/

/-- checkSamplePattern: fraction of non-empty sample values under the header
    that match the pattern, scaled by 0.85; 0 when there are no samples. -/
def checkSamplePattern (sampleRows : List RawRow) (csvHeader : String)
    (pattern : String → Bool) : ℚ :=
  if sampleRows.length = 0 then 0
  else
    let counts := sampleRows.foldl
      (fun (acc : ℕ × ℕ) row =>
        match alistGet row csvHeader with
        | Option.none => acc
        | some v =>
          let val := trimJS v
          if val = "" then acc
          else ((if pattern val then acc.1 + 1 else acc.1), acc.2 + 1))
      (0, 0)
    if counts.2 = 0 then 0
    else ((counts.1 : ℚ) / (counts.2 : ℚ)) * 0.85

/-! ### Mapping suggestion engine (heuristic-mapper.ts, generateMappingSuggestions) -/

/-- The best match found so far for one header (the bestMatch accumulator). -/
structure BestMatch where
  field : String
  confidence : ℚ
  matchType : MatchType
deriving DecidableEq, Repr

/-- One entry of the per-field conflict groups (csvHeader plus its score). -/
structure HeaderScore where
  csvHeader : String
  confidence : ℚ
  matchType : MatchType
deriving DecidableEq, Repr

/-- The guarded update "if (!bestMatch || bestMatch.confidence < c) bestMatch = cand". -/
def updateIfBetter (best : Option BestMatch) (cand : BestMatch) : Option BestMatch :=
  match best with
  | Option.none => some cand
  | some b => if b.confidence < cand.confidence then some cand else some b

/-- Check 3 of the field loop: Dice similarity of the normalized header
    against the field key, label and every alias; an update fires when the
    maximum exceeds 0.6, capped at 0.9. -/
def similarityStep (normalized : String) (best : Option BestMatch)
    (field : SchemaField) : Option BestMatch :=
  let simKey := diceCoefficient normalized (normalizeHeader field.key)
  let simLabel := diceCoefficient normalized (normalizeHeader field.label)
  let simAliases := field.aliases.map (fun a => diceCoefficient normalized (normalizeHeader a))
  let maxSim := simAliases.foldl max (max simKey simLabel)
  if maxSim > 0.6 then
    updateIfBetter best ⟨field.key, min maxSim 0.9, MatchType.similarity⟩
  else best

/-- Check 4 of the field loop: sample-pattern evidence, which fires above 0.3
    and competes against the accumulator left by the similarity check. -/
def patternStep (sampleRows : List RawRow) (csvHeader : String)
    (best1 : Option BestMatch) (field : SchemaField) : Option BestMatch :=
  match field.samplePattern with
  | Option.none => best1
  | some p =>
    let patternConf := checkSamplePattern sampleRows csvHeader p
    if patternConf > 0.3 then
      updateIfBetter best1 ⟨field.key, patternConf, MatchType.pattern⟩
    else best1

/-- One iteration of the inner field loop: exact match, alias match, Dice
    similarity, sample pattern.  Exact and alias matches skip the remaining
    checks of the same field (the continue statements of the source). -/
def scoreHeaderAgainstField (sampleRows : List RawRow) (csvHeader : String)
    (normalized : String) (best : Option BestMatch) (field : SchemaField) :
    Option BestMatch :=
  let fieldNormalized := normalizeHeader field.key
  let labelNormalized := normalizeHeader field.label
  if normalized = fieldNormalized ∨ normalized = labelNormalized then
    updateIfBetter best ⟨field.key, 1, MatchType.exactM⟩
  else if field.aliases.any (fun a => normalizeHeader a = normalized) then
    updateIfBetter best ⟨field.key, 0.95, MatchType.aliasM⟩
  else
    patternStep sampleRows csvHeader (similarityStep normalized best field) field

/-- The best match for one CSV header over the given field order. -/
def bestMatchFor (fields : List SchemaField) (sampleRows : List RawRow)
    (csvHeader : String) : Option BestMatch :=
  fields.foldl (scoreHeaderAgainstField sampleRows csvHeader (normalizeHeader csvHeader))
    Option.none

/-- First pass: best match per CSV header (the headerScores Map). -/
def firstPass (fields : List SchemaField) (sampleRows : List RawRow)
    (csvHeaders : List String) : List (String × BestMatch) :=
  csvHeaders.foldl
    (fun hs h =>
      match bestMatchFor fields sampleRows h with
      | Option.none => hs
      | some m => alistSet hs h m)
    []

/-- Build the fieldToHeaders Map: group the scored headers by their field. -/
def groupByField (hs : List (String × BestMatch)) : List (String × List HeaderScore) :=
  hs.foldl
    (fun acc entry =>
      alistSet acc entry.2.field
        ((alistGet acc entry.2.field).getD [] ++
          [⟨entry.1, entry.2.confidence, entry.2.matchType⟩]))
    []

/-- Stable insertion used to model Array.prototype.sort (which is stable):
    x is placed before the first element it must strictly precede. -/
def stableInsert {α : Type} (prec : α → α → Bool) (x : α) : List α → List α
  | [] => [x]
  | y :: ys => if prec x y then x :: y :: ys else y :: stableInsert prec x ys

/-- Stable sort by the strict precedence prec (insertion in original order). -/
def stableSort {α : Type} (prec : α → α → Bool) (l : List α) : List α :=
  l.foldl (fun acc x => stableInsert prec x acc) []

/-- The comparator (a, b) => b.confidence - a.confidence: descending confidence. -/
def confDescPrec (x y : HeaderScore) : Bool :=
  x.confidence > y.confidence

/-- Resolve one conflict group: when several headers claim the field, sort by
    confidence descending, unmap the losers, keep only the winner. -/
def resolveGroup (hs : List (String × BestMatch)) (field : String)
    (ms : List HeaderScore) : List (String × BestMatch) :=
  let sorted := if ms.length > 1 then stableSort confDescPrec ms else ms
  match sorted with
  | [] => hs
  | w :: rest =>
    let hs1 := rest.foldl (fun acc x => alistDelete acc x.csvHeader) hs
    alistSet hs1 w.csvHeader ⟨field, w.confidence, w.matchType⟩

/-- Second pass: resolve the many-to-one conflicts group by group. -/
def resolvePass (hs : List (String × BestMatch)) : List (String × BestMatch) :=
  (groupByField hs).foldl (fun cur entry => resolveGroup cur entry.1 entry.2) hs

/-- Build the final suggestion list, one suggestion per input header. -/
def buildSuggestions (csvHeaders : List String) (final : List (String × BestMatch)) :
    List MappingSuggestion :=
  csvHeaders.map (fun h =>
    match alistGet final h with
    | some m => ⟨h, some m.field, m.confidence, m.matchType⟩
    | Option.none => ⟨h, Option.none, 0, MatchType.noneM⟩)

/-- The engine over an explicit field evaluation order. -/
def generateMappingSuggestionsCore (csvHeaders : List String)
    (fields : List SchemaField) (sampleRows : List RawRow) : List MappingSuggestion :=
  buildSuggestions csvHeaders (resolvePass (firstPass fields sampleRows csvHeaders))

/-- The comparator (a, b) => (b.required ? 1 : 0) - (a.required ? 1 : 0):
    required fields strictly precede optional ones. -/
def requiredFirstPrec (x y : SchemaField) : Bool :=
  x.required && !y.required

/-- generateMappingSuggestions: sort the schema fields required-first, score
    every header, then resolve many-to-one conflicts. -/
def generateMappingSuggestions (csvHeaders : List String) (schema : SourceSchema)
    (sampleRows : List RawRow) : List MappingSuggestion :=
  generateMappingSuggestionsCore csvHeaders
    (stableSort requiredFirstPrec schema.fields) sampleRows

/-- The engine with the schema fields evaluated in their declared order.
    Second definition for the refinement claim about field ordering: it follows
    the specification sentence that the required-first sort is only a hint and
    must not change match outcomes. -/
def generateMappingSuggestionsDeclaredOrder (csvHeaders : List String)
    (schema : SourceSchema) (sampleRows : List RawRow) : List MappingSuggestion :=
  generateMappingSuggestionsCore csvHeaders schema.fields sampleRows

/-! ### Source detector gate (detect-source.ts, isConfidentDetection) -/

structure DetectionResult where
  source : String
  confidence : ℚ
  mappedCount : ℕ
  requiredMapped : ℕ
  requiredTotal : ℕ
deriving DecidableEq, Repr

/-- isConfidentDetection: confidence at least 0.5, all required fields mapped,
    and a gap of at least 0.15 to the runner-up when one exists. -/
def isConfidentDetection (results : List DetectionResult) : Bool :=
  match results with
  | [] => false
  | top :: rest =>
    if top.confidence < 0.5 then false
    else if top.requiredMapped < top.requiredTotal then false
    else
      match rest with
      | [] => true
      | runnerUp :: _ =>
        if top.confidence - runnerUp.confidence < 0.15 then false else true

/-! ### Validators (validators.ts) -/

/-- The result of a successful JavaScript parseFloat: a finite rational or a
    signed infinity.  NaN is represented as Option.none by the callers. -/
inductive JsNum where
  | fin : ℚ → JsNum
  | posInf
  | negInf
deriving DecidableEq, Repr

/-- The numeric value of a digit list read in base 10. -/
def digitsToNat (ds : List Char) : ℕ :=
  ds.foldl (fun n c => 10 * n + (c.toNat - '0'.toNat)) 0

/-- JavaScript parseFloat: skip leading whitespace, optional sign, then either
    the literal Infinity or a decimal literal with optional fraction and
    exponent; the longest valid prefix is parsed and trailing characters are
    ignored; Option.none is NaN (no valid numeric prefix). -/
def parseFloatJS (s : List Char) : Option JsNum :=
  let s1 := s.dropWhile isSpaceJS
  let signed : Bool × List Char :=
    match s1 with
    | '+' :: r => (false, r)
    | '-' :: r => (true, r)
    | _ => (false, s1)
  let neg := signed.1
  let s2 := signed.2
  if s2.take 8 = "Infinity".data then
    some (if neg then JsNum.negInf else JsNum.posInf)
  else
    let intPart := s2.takeWhile Char.isDigit
    let r1 := s2.dropWhile Char.isDigit
    let fracSplit : List Char × List Char :=
      match r1 with
      | '.' :: r => (r.takeWhile Char.isDigit, r.dropWhile Char.isDigit)
      | _ => ([], r1)
    let fracPart := fracSplit.1
    let r2 := fracSplit.2
    if intPart = [] ∧ fracPart = [] then Option.none
    else
      let mantissa : ℚ :=
        (digitsToNat intPart : ℚ) + (digitsToNat fracPart : ℚ) / ((10 : ℚ) ^ fracPart.length)
      let exp : ℤ :=
        match r2 with
        | e :: rest =>
          if e = 'e' ∨ e = 'E' then
            let esigned : Bool × List Char :=
              match rest with
              | '+' :: rr => (false, rr)
              | '-' :: rr => (true, rr)
              | _ => (false, rest)
            let eDigits := esigned.2.takeWhile Char.isDigit
            if eDigits = [] then 0
            else if esigned.1 then -(digitsToNat eDigits : ℤ) else (digitsToNat eDigits : ℤ)
          else 0
        | [] => 0
      some (JsNum.fin ((if neg then -1 else 1) * mantissa * (10 : ℚ) ^ exp))

/-- parseCurrency: strip dollar signs, commas and whitespace, then parseFloat;
    null (Option.none) when the result is NaN. -/
def parseCurrency (value : String) : Option JsNum :=
  let cleaned := value.data.filter (fun c => !(c == '$' || c == ',' || isSpaceJS c))
  parseFloatJS cleaned

/-- parseNumber: strip commas and whitespace, then parseFloat; null when NaN. -/
def parseNumber (value : String) : Option JsNum :=
  let cleaned := value.data.filter (fun c => !(c == ',' || isSpaceJS c))
  parseFloatJS cleaned

/-- Membership of a dot that has at least one character after it. -/
def dotNotLast : List Char → Bool
  | [] => false
  | c :: cs => (c == '.' && !cs.isEmpty) || dotNotLast cs

/-- The EMAIL_REGEX test (anchored): one run of non-space non-at characters,
    an at sign, a second run, a dot, a third run.  Equivalently: exactly one
    at sign, no whitespace, a non-empty local part, and a dot inside the
    domain with at least one character on each side. -/
def emailRegexTest (s : String) : Bool :=
  match s.splitOn "@" with
  | [localPart, domain] =>
    localPart ≠ "" && s.data.all (fun c => !isSpaceJS c) &&
      (match domain.data with
       | [] => false
       | _ :: rest => dotNotLast rest)
  | _ => false

structure ValidationError where
  row : ℕ
  field : String
  message : String
  value : String
deriving DecidableEq, Repr

/-- A mapped row: Record of schema field key to string or null. -/
abbrev MappedRow := List (String × Option String)

/-- The checks of validateMappedRow for one schema field: the required check,
    the skip of empty optional values, then the type-specific check.  Errors
    pushed by the source are the returned singleton lists. -/
def fieldValidationErrors (parseTS : String → Bool) (row : MappedRow)
    (rowIndex : ℕ) (field : SchemaField) : List ValidationError :=
  let value :=
    match alistGet row field.key with
    | some (some s) => trimJS s
    | _ => ""
  if field.required && value == "" then
    [⟨rowIndex, field.key,
      "Required field \"" ++ field.label ++ "\" is empty", ""⟩]
  else if value == "" then []
  else
    match field.type with
    | FieldType.email =>
      if !emailRegexTest value then
        [⟨rowIndex, field.key, "Invalid email format: \"" ++ value ++ "\"", value⟩]
      else []
    | FieldType.number =>
      if parseNumber value = Option.none then
        [⟨rowIndex, field.key, "Invalid number: \"" ++ value ++ "\"", value⟩]
      else []
    | FieldType.currency =>
      if parseCurrency value = Option.none then
        [⟨rowIndex, field.key, "Invalid currency amount: \"" ++ value ++ "\"", value⟩]
      else []
    | FieldType.date =>
      if !parseTS value then
        [⟨rowIndex, field.key, "Invalid date/time: \"" ++ value ++ "\"", value⟩]
      else []
    | FieldType.timestamp =>
      if !parseTS value then
        [⟨rowIndex, field.key, "Invalid date/time: \"" ++ value ++ "\"", value⟩]
      else []
    | FieldType.enum =>
      match field.enumValues with
      | some evs =>
        if !evs.contains (toLowerJS value) then
          [⟨rowIndex, field.key, "Invalid value \"" ++ value ++ "\". Expected: " ++
            String.intercalate ", " evs, value⟩]
        else []
      | Option.none => []
    | FieldType.text => []

/-- validateMappedRow: every schema field is checked; errors accumulate over
    the whole row.  The date/timestamp branch of the source calls
    parseTimestamp, whose primary path is the host Date parser; it is
    abstracted here as the parseTS predicate (true when parsing succeeds). -/
def validateMappedRow (parseTS : String → Bool) (row : MappedRow)
    (schema : SourceSchema) (rowIndex : ℕ) : List ValidationError :=
  schema.fields.foldl
    (fun (errors : List ValidationError) field =>
      errors ++ fieldValidationErrors parseTS row rowIndex field)
    []

/-- applyMapping: reshape a raw row through the header-to-field mapping; a
    value empty after trimming becomes null. -/
def applyMapping (rawRow : RawRow) (mapping : List (String × String)) : MappedRow :=
  mapping.foldl
    (fun mapped entry =>
      let value : Option String :=
        match alistGet rawRow entry.1 with
        | some s => if trimJS s = "" then Option.none else some (trimJS s)
        | Option.none => Option.none
      alistSet mapped entry.2 value)
    []

/-! ### Status normalization maps -/

def PAYMENT_STATUS_MAP : List (String × String) :=
  [("succeeded", "succeeded"), ("paid", "succeeded"), ("complete", "succeeded"),
   ("pending", "pending"), ("processing", "pending"),
   ("failed", "failed"), ("declined", "failed"),
   ("refunded", "refunded"), ("partially_refunded", "refunded")]

def BOOKING_STATUS_MAP : List (String × String) :=
  [("scheduled", "scheduled"), ("active", "scheduled"), ("confirmed", "scheduled"),
   ("upcoming", "scheduled"),
   ("completed", "completed"), ("done", "completed"),
   ("cancelled", "cancelled"), ("canceled", "cancelled"),
   ("no_show", "no_show"), ("no show", "no_show"), ("noshow", "no_show")]

/-- normalizeStatus: lowercase and trim the value, then look it up in the map
    of the source; the normalized value passes through when no entry exists. -/
def normalizeStatus (value : String) (source : String) : String :=
  let normalized := trimJS (toLowerJS value)
  match source with
  | "stripe" => (alistGet PAYMENT_STATUS_MAP normalized).getD normalized
  | "calendly" => (alistGet BOOKING_STATUS_MAP normalized).getD normalized
  | _ => normalized

/-! ### Identity stitcher (stitching/matcher.ts)

    The Supabase persistence is modelled by the Store record.  Customer ids
    are natural numbers issued by a counter (the database generates fresh
    unique ids on insert).  maybeSingle returns the row when exactly one
    matches; with several matching rows the client returns an error that the
    callers discard together with the data, which reads as no match. -/

def DEFAULT_ORG_ID : String := "00000000-0000-0000-0000-000000000001"

structure Customer where
  id : ℕ
  orgId : String
  email : Option String
  name : Option String
deriving DecidableEq, Repr

structure CustomerSource where
  customerId : ℕ
  source : String
  externalId : String
  externalEmail : Option String
  externalName : Option String
deriving DecidableEq, Repr

structure StitchingConflict where
  orgId : String
  customerAId : ℕ
  customerBId : ℕ
  matchField : String
  matchValue : Option String
  confidence : ℚ
  status : String
  importId : Option String
deriving DecidableEq, Repr

structure Store where
  customers : List Customer
  customerSources : List CustomerSource
  conflicts : List StitchingConflict
  nextId : ℕ
deriving DecidableEq, Repr

inductive MatchedBy where
  | external_id
  | email
  | name
  | noneMB
deriving DecidableEq, Repr

structure StitchResult where
  customerId : ℕ
  isNew : Bool
  matchedBy : MatchedBy
deriving DecidableEq, Repr

/-- maybeSingle on a filtered query without limit: exactly one row or nothing. -/
def maybeSingle {α : Type} (l : List α) : Option α :=
  match l with
  | [x] => some x
  | _ => Option.none

/-- The ilike name comparison: case-insensitive equality (the stitcher passes
    the raw name as the pattern, so wildcards are not modelled). -/
def ilikeMatches (pattern : String) (v : Option String) : Bool :=
  match v with
  | some s => toLowerJS s == toLowerJS pattern
  | Option.none => false

/-- createCustomer: insert a customer row and return its fresh id. -/
def createCustomer (st : Store) (email name : Option String) : ℕ × Store :=
  (st.nextId,
   { st with
      customers := st.customers ++ [⟨st.nextId, DEFAULT_ORG_ID, email, name⟩],
      nextId := st.nextId + 1 })

/-- linkSourceToCustomer: upsert on (source, external_id) — update the
    conflicting row in place, insert otherwise. -/
def linkSourceToCustomer (st : Store) (customerId : ℕ) (source externalId : String)
    (email name : Option String) : Store :=
  if st.customerSources.any (fun r => r.source == source && r.externalId == externalId) then
    { st with
        customerSources := st.customerSources.map
          (fun r =>
            if r.source == source && r.externalId == externalId then
              ⟨customerId, source, externalId, email, name⟩
            else r) }
  else
    { st with
        customerSources :=
          st.customerSources ++ [⟨customerId, source, externalId, email, name⟩] }

/-- flagConflict: insert one pending stitching_conflicts row. -/
def flagConflict (st : Store) (customerAId customerBId : ℕ) (matchField : String)
    (matchValue : Option String) (confidence : ℚ) (importId : Option String) : Store :=
  { st with
      conflicts := st.conflicts ++
        [⟨DEFAULT_ORG_ID, customerAId, customerBId, matchField, matchValue,
          confidence, "pending", importId⟩] }

/-- Step 4 of the cascade: no match — create a new customer and link. -/
def stitchNoMatch (st : Store) (source externalId : String)
    (email name : Option String) : StitchResult × Store :=
  let created := createCustomer st email name
  let st2 := linkSourceToCustomer created.2 created.1 source externalId email name
  (⟨created.1, true, MatchedBy.noneMB⟩, st2)

/-- Step 3 of the cascade: name match with conflicting email — flag, do not
    merge; every other outcome falls through to step 4.  The guards mirror the
    truthiness tests of the source (if (name), and existingCustomer.email &&
    email && existingCustomer.email !== email): a null or empty name skips the
    step, and the conflict branch needs both emails present and non-empty. -/
def stitchNameStep (st : Store) (source externalId : String)
    (email name : Option String) : StitchResult × Store :=
  match name with
  | Option.none => stitchNoMatch st source externalId email name
  | some nm =>
    if nm ≠ "" then
      let customersByName :=
        (st.customers.filter
          (fun c => c.orgId == DEFAULT_ORG_ID && ilikeMatches nm c.name)).take 5
      match customersByName with
      | [existingCustomer] =>
        match existingCustomer.email, email with
        | some ce, some e =>
          if ce ≠ "" ∧ e ≠ "" ∧ ce ≠ e then
            let created := createCustomer st email name
            let st2 := linkSourceToCustomer created.2 created.1 source externalId email name
            let st3 := flagConflict st2 existingCustomer.id created.1 "name" (some nm) 0.6
              Option.none
            (⟨created.1, true, MatchedBy.name⟩, st3)
          else stitchNoMatch st source externalId email name
        | _, _ => stitchNoMatch st source externalId email name
      | _ => stitchNoMatch st source externalId email name
    else stitchNoMatch st source externalId email name

/-- Step 2 of the cascade: email match against customers, then against
    customer_sources.external_email (limit 1).  The guard mirrors the source's
    if (email): a null or empty email skips the whole step. -/
def stitchEmailStep (st : Store) (source externalId : String)
    (email name : Option String) : StitchResult × Store :=
  match email with
  | Option.none => stitchNameStep st source externalId email name
  | some e =>
    if e ≠ "" then
      match maybeSingle (st.customers.filter
          (fun c => c.orgId == DEFAULT_ORG_ID && c.email == some e)) with
      | some customerByEmail =>
        let st1 := linkSourceToCustomer st customerByEmail.id source externalId email name
        (⟨customerByEmail.id, false, MatchedBy.email⟩, st1)
      | Option.none =>
        match maybeSingle ((st.customerSources.filter
            (fun r => r.externalEmail == some e)).take 1) with
        | some sourceByEmail =>
          let st1 := linkSourceToCustomer st sourceByEmail.customerId source externalId email name
          (⟨sourceByEmail.customerId, false, MatchedBy.email⟩, st1)
        | Option.none => stitchNameStep st source externalId email name
    else stitchNameStep st source externalId email name

/-- stitchIdentity: the priority cascade — external id, email, name-conflict,
    create.  An empty externalId (falsy) skips the external-id lookup. -/
def stitchIdentity (st : Store) (source externalId : String)
    (email name : Option String) : StitchResult × Store :=
  match
    (if externalId ≠ "" then
      maybeSingle (st.customerSources.filter
        (fun r => r.source == source && r.externalId == externalId))
     else Option.none) with
  | some existingSource =>
    (⟨existingSource.customerId, false, MatchedBy.external_id⟩, st)
  | Option.none => stitchEmailStep st source externalId email name

/-! ## Supporting lemmas -/

/-- eraseFirst is Multiset.erase on the underlying multiset. -/
theorem coe_eraseFirst (s : List (Char × Char)) (g : Char × Char) :
    ((eraseFirst s g : List (Char × Char)) : Multiset (Char × Char)) =
      ((s : Multiset (Char × Char))).erase g := by
  induction s with
  | nil => simp [eraseFirst]
  | cons x xs ih =>
    by_cases hx : x = g
    · subst hx
      rw [eraseFirst, if_pos rfl]
      have h1 : ((x :: xs : List (Char × Char)) : Multiset (Char × Char)) =
        x ::ₘ (xs : Multiset (Char × Char)) := rfl
      rw [h1, Multiset.erase_cons_head]
    · have h1 : ((x :: xs : List (Char × Char)) : Multiset (Char × Char)) =
        x ::ₘ (xs : Multiset (Char × Char)) := rfl
      rw [eraseFirst, if_neg hx, h1,
        Multiset.erase_cons_tail (xs : Multiset (Char × Char)) hx, ← ih]
      rfl

/-- The scan of the Dice loop counts the multiset intersection of the two
    bigram collections. -/
theorem consumeCount_eq_card_inter (l : List (Char × Char)) :
    ∀ s : List (Char × Char),
      consumeCount s l =
        Multiset.card ((l : Multiset (Char × Char)) ∩ (s : Multiset (Char × Char))) := by
  induction l with
  | nil => intro s; simp [consumeCount]
  | cons g gs ih =>
    intro s
    by_cases hg : g ∈ s
    · rw [consumeCount, if_pos hg, ih (eraseFirst s g)]
      have h1 : ((g :: gs : List (Char × Char)) : Multiset (Char × Char)) =
          g ::ₘ (gs : Multiset (Char × Char)) := rfl
      rw [h1, Multiset.cons_inter_of_pos _ (Multiset.mem_coe.mpr hg),
        Multiset.card_cons, coe_eraseFirst]
    · rw [consumeCount, if_neg hg, ih s]
      have h1 : ((g :: gs : List (Char × Char)) : Multiset (Char × Char)) =
          g ::ₘ (gs : Multiset (Char × Char)) := rfl
      rw [h1, Multiset.cons_inter_of_neg _ (fun hm => hg (Multiset.mem_coe.mp hm))]

theorem consumeCount_comm (s l : List (Char × Char)) :
    consumeCount s l = consumeCount l s := by
  rw [consumeCount_eq_card_inter, consumeCount_eq_card_inter, Multiset.inter_comm]

theorem consumeCount_le_left (s l : List (Char × Char)) :
    consumeCount s l ≤ s.length := by
  rw [consumeCount_eq_card_inter]
  calc Multiset.card ((l : Multiset (Char × Char)) ∩ (s : Multiset (Char × Char)))
      ≤ Multiset.card (s : Multiset (Char × Char)) :=
        Multiset.card_le_card (Multiset.inter_le_right _ _)
    _ = s.length := Multiset.coe_card s

theorem consumeCount_le_right (s l : List (Char × Char)) :
    consumeCount s l ≤ l.length := by
  rw [consumeCount_eq_card_inter]
  calc Multiset.card ((l : Multiset (Char × Char)) ∩ (s : Multiset (Char × Char)))
      ≤ Multiset.card (l : Multiset (Char × Char)) :=
        Multiset.card_le_card (Multiset.inter_le_left _ _)
    _ = l.length := Multiset.coe_card l

theorem bigramList_length (l : List Char) : (bigramList l).length = l.length - 1 := by
  cases l with
  | nil => simp [bigramList]
  | cons c cs => simp [bigramList]

/-! ## Claim theorems -/

/-- C6: diceCoefficient of a non-empty string with itself is 1; it is bounded
    in [0,1] for all strings; and it is symmetric. -/
theorem dice_refl_bounds_symm :
    (∀ a : String, a ≠ "" → diceCoefficient a a = 1) ∧
    (∀ a b : String, 0 ≤ diceCoefficient a b ∧ diceCoefficient a b ≤ 1) ∧
    (∀ a b : String, diceCoefficient a b = diceCoefficient b a) := by
  refine ⟨fun a _ => by simp [diceCoefficient], fun a b => ?_, fun a b => ?_⟩
  · unfold diceCoefficient
    split_ifs with h1 h2
    · exact ⟨zero_le_one, le_refl 1⟩
    · exact ⟨le_refl 0, zero_le_one⟩
    · push_neg at h2
      obtain ⟨ha2, hb2⟩ := h2
      have hlen : a.length = a.data.length := rfl
      have hlenb : b.length = b.data.length := rfl
      have hIa : consumeCount (bigramList a.data) (bigramList b.data) ≤ a.length - 1 := by
        have := consumeCount_le_left (bigramList a.data) (bigramList b.data)
        rwa [bigramList_length, ← hlen] at this
      have hIb : consumeCount (bigramList a.data) (bigramList b.data) ≤ b.length - 1 := by
        have := consumeCount_le_right (bigramList a.data) (bigramList b.data)
        rwa [bigramList_length, ← hlenb] at this
      constructor
      · apply div_nonneg
        · positivity
        · positivity
      · rw [div_le_one]
        · have hsum : 2 * consumeCount (bigramList a.data) (bigramList b.data) ≤
              (a.length - 1) + (b.length - 1) := by omega
          calc (2 * (consumeCount (bigramList a.data) (bigramList b.data) : ℚ))
              = ((2 * consumeCount (bigramList a.data) (bigramList b.data) : ℕ) : ℚ) := by
                push_cast; ring
            _ ≤ (((a.length - 1) + (b.length - 1) : ℕ) : ℚ) := by
                exact_mod_cast hsum
        · have hpos : 0 < (a.length - 1) + (b.length - 1) := by omega
          exact_mod_cast hpos
  · by_cases hab : a = b
    · subst hab
      rfl
    · have hba : ¬b = a := fun h => hab h.symm
      simp only [diceCoefficient, if_neg hab, if_neg hba]
      by_cases hlen : a.length < 2 ∨ b.length < 2
      · rw [if_pos hlen, if_pos (Or.symm hlen)]
      · have hlen2 : ¬(b.length < 2 ∨ a.length < 2) := fun h => hlen (Or.symm h)
        rw [if_neg hlen, if_neg hlen2]
        simp only [consumeCount_comm (bigramList a.data) (bigramList b.data),
          Nat.add_comm (a.length - 1) (b.length - 1)]

/-- Closed witness for the hypothesis-bearing parts of the C6 theorem. -/
theorem dice_refl_bounds_symm_witness :
    diceCoefficient "email" "email" = 1 ∧
    (0 ≤ diceCoefficient "night" "nacht" ∧ diceCoefficient "night" "nacht" ≤ 1) ∧
    diceCoefficient "night" "nacht" = diceCoefficient "nacht" "night" :=
  ⟨dice_refl_bounds_symm.1 "email" (by decide),
   dice_refl_bounds_symm.2.1 "night" "nacht",
   dice_refl_bounds_symm.2.2 "night" "nacht"⟩

/-- C5 counterexample: the claim reads the required-field test as an equality,
    but the code only tests requiredMapped < requiredTotal, so a result with
    requiredMapped above requiredTotal passes the gate although the equality
    of the claim fails. -/
theorem isConfidentDetection_counterexample :
    isConfidentDetection [⟨"stripe", 0.9, 5, 2, 1⟩] = true ∧
      (⟨"stripe", 0.9, 5, 2, 1⟩ : DetectionResult).requiredMapped ≠
        (⟨"stripe", 0.9, 5, 2, 1⟩ : DetectionResult).requiredTotal := by
  constructor
  · with_unfolding_all decide
  · decide

/-- C5 (amended with the invariant requiredMapped at most requiredTotal that
    every result produced by detectSource satisfies): for a non-empty result
    list the gate returns true iff the top confidence is at least 0.5, the top
    result has all required fields mapped, and there is no runner-up within
    0.15 of the top confidence; the gate returns false on the empty list. -/
theorem isConfidentDetection_spec (top : DetectionResult) (rest : List DetectionResult)
    (hle : top.requiredMapped ≤ top.requiredTotal) :
    (isConfidentDetection (top :: rest) = true ↔
      ((0.5 : ℚ) ≤ top.confidence ∧ top.requiredMapped = top.requiredTotal ∧
        ∀ runnerUp, rest.head? = some runnerUp →
          (0.15 : ℚ) ≤ top.confidence - runnerUp.confidence)) ∧
    isConfidentDetection [] = false := by
  constructor
  · cases rest with
    | nil =>
      simp only [isConfidentDetection, List.head?_nil]
      constructor
      · intro h
        split_ifs at h with h1 h2
        · exact ⟨not_lt.mp h1, by omega, by intro _ h; cases h⟩
      · intro ⟨h1, h2, _⟩
        rw [if_neg (not_lt.mpr h1), if_neg (by omega)]
    | cons ru t =>
      simp only [isConfidentDetection, List.head?_cons]
      constructor
      · intro h
        split_ifs at h with h1 h2 h3
        · refine ⟨not_lt.mp h1, by omega, ?_⟩
          intro x hx
          cases hx
          linarith [not_lt.mp h3]
      · intro ⟨h1, h2, h3⟩
        have h4 := h3 ru rfl
        rw [if_neg (not_lt.mpr h1), if_neg (by omega), if_neg (not_lt.mpr (by linarith))]
  · rfl

/-- Closed witness for the C5 theorem at a concrete two-element result list. -/
theorem isConfidentDetection_spec_witness :
    ((⟨"stripe", 0.8, 4, 2, 2⟩ : DetectionResult).requiredMapped ≤
      (⟨"stripe", 0.8, 4, 2, 2⟩ : DetectionResult).requiredTotal) ∧
    ((isConfidentDetection
        [⟨"stripe", 0.8, 4, 2, 2⟩, ⟨"calendly", 0.4, 2, 1, 1⟩] = true ↔
      ((0.5 : ℚ) ≤ (⟨"stripe", 0.8, 4, 2, 2⟩ : DetectionResult).confidence ∧
        (⟨"stripe", 0.8, 4, 2, 2⟩ : DetectionResult).requiredMapped =
          (⟨"stripe", 0.8, 4, 2, 2⟩ : DetectionResult).requiredTotal ∧
        ∀ runnerUp, ([⟨"calendly", 0.4, 2, 1, 1⟩] :
            List DetectionResult).head? = some runnerUp →
          (0.15 : ℚ) ≤ (⟨"stripe", 0.8, 4, 2, 2⟩ : DetectionResult).confidence -
            runnerUp.confidence)) ∧
      isConfidentDetection [] = false) :=
  ⟨by decide,
   isConfidentDetection_spec ⟨"stripe", 0.8, 4, 2, 2⟩ [⟨"calendly", 0.4, 2, 1, 1⟩]
     (by decide)⟩


/-- The per-source canonicalization table consulted by normalizeStatus. -/
def statusMapFor (source : String) : List (String × String) :=
  match source with
  | "stripe" => PAYMENT_STATUS_MAP
  | "calendly" => BOOKING_STATUS_MAP
  | _ => []

/-- C8: normalizeStatus lowercases and trims the raw value and looks it up in
    the per-source canonicalization table (paid becomes succeeded, no show
    becomes no_show); a value with no table entry passes through unchanged
    (after the lowercase and trim normalization). -/
theorem normalizeStatus_spec :
    normalizeStatus "paid" "stripe" = "succeeded" ∧
    normalizeStatus "No Show" "calendly" = "no_show" ∧
    (∀ value source : String, ∀ w : String,
      alistGet (statusMapFor source) (trimJS (toLowerJS value)) = some w →
        normalizeStatus value source = w) ∧
    (∀ value source : String,
      alistGet (statusMapFor source) (trimJS (toLowerJS value)) = Option.none →
        normalizeStatus value source = trimJS (toLowerJS value)) := by
  refine ⟨by decide, by decide, ?_, ?_⟩
  · intro value source w h
    unfold statusMapFor at h
    unfold normalizeStatus
    split at h
    · simp only [h, Option.getD_some]
    · simp only [h, Option.getD_some]
    · simp [alistGet] at h
  · intro value source h
    unfold statusMapFor at h
    unfold normalizeStatus
    split at h
    · simp only [h, Option.getD_none]
    · simp only [h, Option.getD_none]
    · rfl

/-- Closed witness for the C8 theorem: a table hit and a pass-through value. -/
theorem normalizeStatus_spec_witness :
    (alistGet (statusMapFor "stripe") (trimJS (toLowerJS "PAID ")) = some "succeeded" ∧
      normalizeStatus "PAID " "stripe" = "succeeded") ∧
    (alistGet (statusMapFor "other") (trimJS (toLowerJS "Weird")) = Option.none ∧
      normalizeStatus "Weird" "other" = trimJS (toLowerJS "Weird")) :=
  ⟨⟨by decide,
    normalizeStatus_spec.2.2.1 "PAID " "stripe" "succeeded" (by decide)⟩,
   ⟨by decide,
    normalizeStatus_spec.2.2.2 "Weird" "other" (by decide)⟩⟩

/-- Accumulating with append from an initial list splits off the initial list. -/
theorem foldl_append_eq_join {α β : Type} (g : α → List β) :
    ∀ (l : List α) (init : List β),
      l.foldl (fun acc x => acc ++ g x) init = init ++ (l.map g).flatten := by
  intro l
  induction l with
  | nil => intro init; simp
  | cons x xs ih =>
    intro init
    simp only [List.foldl_cons, List.map_cons, List.flatten_cons]
    rw [ih (init ++ g x)]
    simp

/-- validateMappedRow is the concatenation of the per-field error lists. -/
theorem validateMappedRow_eq_join (parseTS : String → Bool) (row : MappedRow)
    (schema : SourceSchema) (rowIndex : ℕ) :
    validateMappedRow parseTS row schema rowIndex =
      (schema.fields.map (fieldValidationErrors parseTS row rowIndex)).flatten := by
  unfold validateMappedRow
  rw [foldl_append_eq_join]
  simp

/-- Every error produced for a field carries the key of that field. -/
theorem fieldValidationErrors_field (parseTS : String → Bool) (row : MappedRow)
    (rowIndex : ℕ) (f : SchemaField) :
    ∀ e ∈ fieldValidationErrors parseTS row rowIndex f, e.field = f.key := by
  intro e he
  simp only [fieldValidationErrors] at he
  split at he
  · simp only [List.mem_singleton] at he
    rw [he]
  · split at he
    · simp at he
    · split at he
      · split at he
        · simp only [List.mem_singleton] at he
          rw [he]
        · simp at he
      · split at he
        · simp only [List.mem_singleton] at he
          rw [he]
        · simp at he
      · split at he
        · simp only [List.mem_singleton] at he
          rw [he]
        · simp at he
      · split at he
        · simp only [List.mem_singleton] at he
          rw [he]
        · simp at he
      · split at he
        · simp only [List.mem_singleton] at he
          rw [he]
        · simp at he
      · split at he
        · split at he
          · simp only [List.mem_singleton] at he
            rw [he]
          · simp at he
        · simp at he
      · simp at he

/-- No field with a different key contributes errors carrying the given key. -/
theorem join_filter_key_nil (parseTS : String → Bool) (row : MappedRow)
    (rowIndex : ℕ) (k : String) :
    ∀ fields : List SchemaField, (∀ f ∈ fields, f.key ≠ k) →
      ((fields.map (fieldValidationErrors parseTS row rowIndex)).flatten).filter
        (fun e => e.field == k) = [] := by
  intro fields
  induction fields with
  | nil => intro _; simp
  | cons x xs ih =>
    intro hall
    simp only [List.map_cons, List.flatten_cons, List.filter_append]
    have h1 : (fieldValidationErrors parseTS row rowIndex x).filter
        (fun e => e.field == k) = [] := by
      rw [List.filter_eq_nil_iff]
      intro e he
      have hfe := fieldValidationErrors_field parseTS row rowIndex x e he
      have hxk : x.key ≠ k := hall x (List.mem_cons_self x xs)
      simp [hfe, hxk]
    rw [h1, ih (fun f hf => hall f (List.mem_cons_of_mem x hf))]
    rfl

/-- With unique keys, the errors of the row carrying the key of field f are
    exactly the errors that the check of f produced. -/
theorem validate_filter_eq (parseTS : String → Bool) (row : MappedRow)
    (schema : SourceSchema) (rowIndex : ℕ) (f : SchemaField)
    (hf : f ∈ schema.fields)
    (hnd : (schema.fields.map SchemaField.key).Nodup) :
    (validateMappedRow parseTS row schema rowIndex).filter (fun e => e.field == f.key) =
      fieldValidationErrors parseTS row rowIndex f := by
  rw [validateMappedRow_eq_join]
  revert hf hnd
  induction schema.fields with
  | nil => intro hf _; cases hf
  | cons x xs ih =>
    intro hf hnd
    simp only [List.map_cons, List.flatten_cons, List.filter_append]
    rcases List.mem_cons.mp hf with hx | hxs
    · subst hx
      have h1 : (fieldValidationErrors parseTS row rowIndex f).filter
          (fun e => e.field == f.key) = fieldValidationErrors parseTS row rowIndex f := by
        rw [List.filter_eq_self]
        intro e he
        have hfe := fieldValidationErrors_field parseTS row rowIndex f e he
        simp [hfe]
      have h2 := join_filter_key_nil parseTS row rowIndex f.key xs
        (fun g hg hgk => (List.nodup_cons.mp hnd).1
          (hgk ▸ List.mem_map_of_mem SchemaField.key hg))
      rw [h1, h2, List.append_nil]
    · have hxk : x.key ≠ f.key := by
        intro hEq
        have hmem : f.key ∈ xs.map SchemaField.key := List.mem_map_of_mem SchemaField.key hxs
        exact (List.nodup_cons.mp hnd).1 (hEq ▸ hmem)
      have h1 : (fieldValidationErrors parseTS row rowIndex x).filter
          (fun e => e.field == f.key) = [] := by
        rw [List.filter_eq_nil_iff]
        intro e he
        have hfe := fieldValidationErrors_field parseTS row rowIndex x e he
        simp [hfe, hxk]
      rw [h1, ih hxs (List.nodup_cons.mp hnd).2, List.nil_append]

/-- C7 counterexample: the value Infinity does not parse to a finite number
    (parseFloat yields positive infinity), yet validation accepts it without
    any error, against the "if and only if" of the claim. -/
theorem currency_infinity_counterexample :
    parseCurrency "Infinity" = some JsNum.posInf ∧
    validateMappedRow (fun _ => true) [("amount", some "Infinity")]
      ⟨"stripe", "Stripe",
        [⟨"amount", "Amount", FieldType.currency, true, [], Option.none, Option.none⟩],
        "id", "email", "name"⟩ 0 = [] := by
  constructor
  · with_unfolding_all decide
  · with_unfolding_all decide

/-- C7 (amended): for a non-empty value of a currency field, validation strips
    dollar signs, commas and whitespace and emits exactly one error for the
    field if and only if the remainder does not parse to a number at all
    (parseFloat NaN); values parsing to the non-finite Infinity are accepted.
    parseCurrency of 1,234.56 dollars is 1234.56. -/
theorem currency_validation_amended (parseTS : String → Bool) (row : MappedRow)
    (schema : SourceSchema) (rowIndex : ℕ) (f : SchemaField) (value : String)
    (hf : f ∈ schema.fields) (hcur : f.type = FieldType.currency)
    (hnd : (schema.fields.map SchemaField.key).Nodup)
    (hv : (match alistGet row f.key with
           | some (some s) => trimJS s
           | _ => "") = value)
    (hne : value ≠ "") :
    ((validateMappedRow parseTS row schema rowIndex).filter (fun e => e.field == f.key) =
      if parseCurrency value = Option.none then
        [⟨rowIndex, f.key, "Invalid currency amount: \"" ++ value ++ "\"", value⟩]
      else []) ∧
    parseCurrency "$1,234.56" = some (JsNum.fin 1234.56) := by
  constructor
  · rw [validate_filter_eq parseTS row schema rowIndex f hf hnd]
    have hvb : (value == "") = false := by
      simp [hne]
    simp only [fieldValidationErrors, hv, hcur, hvb, Bool.and_false]
    rfl
  · simp +decide [parseCurrency, parseFloatJS, digitsToNat, isSpaceJS]
    norm_num

/-- A one-field currency schema used to instantiate validator theorems. -/
def amountDemoField : SchemaField :=
  ⟨"amount", "Amount", FieldType.currency, true, [], Option.none, Option.none⟩

/-- The schema holding only the demo currency field. -/
def amountDemoSchema : SourceSchema :=
  ⟨"stripe", "Stripe", [amountDemoField], "id", "email", "name"⟩

/-- Closed witness for the C7 theorem: the value abc yields exactly one
    currency error for the field amount. -/
theorem currency_validation_amended_witness :
    ("abc" : String) ≠ "" ∧
    amountDemoField ∈ amountDemoSchema.fields ∧
    (((validateMappedRow (fun _ => true) [("amount", some "abc")]
          amountDemoSchema 0).filter (fun e => e.field == amountDemoField.key) =
      if parseCurrency "abc" = Option.none then
        [⟨0, amountDemoField.key,
          "Invalid currency amount: \"" ++ "abc" ++ "\"", "abc"⟩]
      else []) ∧
      parseCurrency "$1,234.56" = some (JsNum.fin 1234.56)) :=
  ⟨by decide, List.mem_singleton.mpr rfl,
   currency_validation_amended (fun _ => true) [("amount", some "abc")]
     amountDemoSchema 0 amountDemoField "abc"
     (List.mem_singleton.mpr rfl) (by decide) (by decide) (by decide) (by decide)⟩

/-- With no conflicting row present, the upsert of linkSourceToCustomer is a
    plain insert at the end of customer_sources. -/
theorem linkSource_customerSources (st : Store) (cid : ℕ) (source externalId : String)
    (email name : Option String)
    (hNone : st.customerSources.filter
      (fun r => r.source == source && r.externalId == externalId) = []) :
    (linkSourceToCustomer st cid source externalId email name).customerSources =
      st.customerSources ++ [⟨cid, source, externalId, email, name⟩] := by
  unfold linkSourceToCustomer
  have hany : st.customerSources.any
      (fun r => r.source == source && r.externalId == externalId) = false := by
    rw [List.any_eq_false]
    intro r hr hpr
    have : r ∈ st.customerSources.filter
        (fun r => r.source == source && r.externalId == externalId) :=
      List.mem_filter.mpr ⟨hr, hpr⟩
    rw [hNone] at this
    cases this
  rw [hany]
  simp

/-- linkSourceToCustomer changes only customer_sources. -/
theorem linkSource_frame (st : Store) (cid : ℕ) (source externalId : String)
    (email name : Option String) :
    (linkSourceToCustomer st cid source externalId email name).customers = st.customers ∧
    (linkSourceToCustomer st cid source externalId email name).conflicts = st.conflicts ∧
    (linkSourceToCustomer st cid source externalId email name).nextId = st.nextId := by
  unfold linkSourceToCustomer
  split <;> exact ⟨rfl, rfl, rfl⟩

/-- flagConflict does not touch customer_sources. -/
theorem flagConflict_customerSources (st : Store) (a b : ℕ) (f : String)
    (v : Option String) (c : ℚ) (i : Option String) :
    (flagConflict st a b f v c i).customerSources = st.customerSources := rfl

/-- createCustomer does not touch customer_sources. -/
theorem createCustomer_customerSources (st : Store) (email name : Option String) :
    (createCustomer st email name).2.customerSources = st.customerSources := rfl

/-- After an insert-upsert, the rows matching (source, externalId) are exactly
    the inserted link. -/
theorem link_filter_singleton (st : Store) (cid : ℕ) (source externalId : String)
    (email name : Option String)
    (hN : st.customerSources.filter
      (fun r => r.source == source && r.externalId == externalId) = []) :
    (linkSourceToCustomer st cid source externalId email name).customerSources.filter
        (fun r => r.source == source && r.externalId == externalId) =
      [⟨cid, source, externalId, email, name⟩] := by
  rw [linkSource_customerSources _ _ _ _ _ _ hN, List.filter_append, hN]
  simp

set_option maxHeartbeats 1600000 in
/-- Whenever the external-id lookup of step 1 misses, the cascade always ends
    by upserting the (source, externalId) link onto the customer id it
    returns: afterwards the matching rows are exactly that one link. -/
theorem stitch_links_external_id (st : Store) (source externalId : String)
    (email name : Option String)
    (hNone : st.customerSources.filter
      (fun r => r.source == source && r.externalId == externalId) = []) :
    (stitchIdentity st source externalId email name).2.customerSources.filter
        (fun r => r.source == source && r.externalId == externalId) =
      [⟨(stitchIdentity st source externalId email name).1.customerId,
        source, externalId, email, name⟩] := by
  have hstep1 : (if externalId ≠ "" then
      maybeSingle (st.customerSources.filter
        (fun r => r.source == source && r.externalId == externalId))
     else Option.none) = Option.none := by
    split
    · rw [hNone]; rfl
    · rfl
  rcases hres : stitchIdentity st source externalId email name with ⟨r, st2⟩
  unfold stitchIdentity at hres
  rw [hstep1] at hres
  unfold stitchEmailStep stitchNameStep stitchNoMatch at hres
  repeat' split at hres
  all_goals try dsimp only [] at hres
  repeat' split at hres
  all_goals try dsimp only [] at hres
  all_goals injection hres with h1 h2
  all_goals subst h1 h2
  all_goals simp only [flagConflict_customerSources]
  all_goals first
    | exact link_filter_singleton st _ source externalId _ _ hNone
    | exact link_filter_singleton _ _ source externalId _ _
        (by rw [createCustomer_customerSources]; exact hNone)
    | (exfalso; simp_all)

/-- A hit of the step-1 lookup returns the linked customer and writes nothing. -/
theorem stitch_step1_hit (st : Store) (source externalId : String)
    (email name : Option String) (row : CustomerSource)
    (hExt : externalId ≠ "")
    (hRow : st.customerSources.filter
      (fun r => r.source == source && r.externalId == externalId) = [row]) :
    stitchIdentity st source externalId email name =
      (⟨row.customerId, false, MatchedBy.external_id⟩, st) := by
  unfold stitchIdentity
  rw [if_pos hExt, hRow]
  rfl

/-- C10: when a CustomerSource row for (source, externalId) already exists and
    the externalId is non-empty, stitchIdentity returns that row's customer id
    with isNew false and matchedBy external_id, and the store is unchanged:
    no customer insert, no upsert (the recorded external_email and
    external_name are not refreshed), no conflict insert. -/
theorem stitch_external_id_frame (st : Store) (source externalId : String)
    (email name : Option String) (row : CustomerSource)
    (hExt : externalId ≠ "")
    (hRow : st.customerSources.filter
      (fun r => r.source == source && r.externalId == externalId) = [row]) :
    stitchIdentity st source externalId email name =
      (⟨row.customerId, false, MatchedBy.external_id⟩, st) := by
  unfold stitchIdentity
  rw [if_pos hExt, hRow]
  rfl

/-- A store holding one linked source row, for instantiating the stitcher
    theorems. -/
def linkedStoreDemo : Store :=
  ⟨[], [⟨7, "stripe", "x1", Option.none, Option.none⟩], [], 8⟩

/-- Closed witness for the C10 theorem on a one-row store. -/
theorem stitch_external_id_frame_witness :
    ("x1" : String) ≠ "" ∧
    linkedStoreDemo.customerSources.filter
      (fun r => r.source == "stripe" && r.externalId == "x1") =
        [⟨7, "stripe", "x1", Option.none, Option.none⟩] ∧
    stitchIdentity linkedStoreDemo "stripe" "x1" (some "a@b.co") (some "Al") =
      (⟨7, false, MatchedBy.external_id⟩, linkedStoreDemo) :=
  ⟨by decide, by decide,
   stitch_external_id_frame linkedStoreDemo "stripe" "x1" (some "a@b.co") (some "Al")
     ⟨7, "stripe", "x1", Option.none, Option.none⟩ (by decide) (by decide)⟩

/-- C2 (amended to non-empty email, recorded email and name): with no
    external-id or email match and exactly one case-insensitive name match
    whose recorded email differs from the row's email, the stitcher creates a
    brand-new customer (never returning the matched customer's id), attaches
    the (source, externalId) link to the new customer, and inserts exactly one
    pending StitchingConflict with match_field name and confidence 0.6
    referencing the existing and the new customer ids.  The original claim
    also covers the empty-string email, which JavaScript treats as falsy:
    there the conflict guard fails and no conflict is inserted. -/
theorem stitch_no_silent_merge (st : Store) (source externalId : String)
    (e nm e0 : String) (c0 : Customer)
    (hE : e ≠ "") (hNm : nm ≠ "") (hE0 : e0 ≠ "")
    (hIds : ∀ c ∈ st.customers, c.id < st.nextId)
    (hNoExt : st.customerSources.filter
      (fun r => r.source == source && r.externalId == externalId) = [])
    (hNoEmailCust : st.customers.filter
      (fun c => c.orgId == DEFAULT_ORG_ID && c.email == some e) = [])
    (hNoEmailSrc : st.customerSources.filter
      (fun r => r.externalEmail == some e) = [])
    (hName : st.customers.filter
      (fun c => c.orgId == DEFAULT_ORG_ID && ilikeMatches nm c.name) = [c0])
    (hC0Email : c0.email = some e0) (hDiff : e0 ≠ e) :
    stitchIdentity st source externalId (some e) (some nm) =
      (⟨st.nextId, true, MatchedBy.name⟩,
       ⟨st.customers ++ [⟨st.nextId, DEFAULT_ORG_ID, some e, some nm⟩],
        st.customerSources ++ [⟨st.nextId, source, externalId, some e, some nm⟩],
        st.conflicts ++ [⟨DEFAULT_ORG_ID, c0.id, st.nextId, "name", some nm,
          (0.6 : ℚ), "pending", Option.none⟩],
        st.nextId + 1⟩) ∧
    st.nextId ≠ c0.id := by
  have hc0mem : c0 ∈ st.customers := by
    have hmem : c0 ∈ st.customers.filter
        (fun c => c.orgId == DEFAULT_ORG_ID && ilikeMatches nm c.name) := by
      rw [hName]
      exact List.mem_singleton.mpr rfl
    exact List.mem_of_mem_filter hmem
  constructor
  · have hstep1 : (if externalId ≠ "" then
        maybeSingle (st.customerSources.filter
          (fun r => r.source == source && r.externalId == externalId))
       else Option.none) = Option.none := by
      split
      · rw [hNoExt]; rfl
      · rfl
    have hany : st.customerSources.any
        (fun r => r.source == source && r.externalId == externalId) = false := by
      rw [List.any_eq_false]
      intro r hr hpr
      have hmem : r ∈ st.customerSources.filter
          (fun r => r.source == source && r.externalId == externalId) :=
        List.mem_filter.mpr ⟨hr, hpr⟩
      rw [hNoExt] at hmem
      cases hmem
    unfold stitchIdentity
    rw [hstep1]
    unfold stitchEmailStep
    dsimp only []
    rw [if_pos hE]
    rw [hNoEmailCust, hNoEmailSrc]
    show stitchNameStep st source externalId (some e) (some nm) = _
    unfold stitchNameStep
    dsimp only []
    rw [if_pos hNm]
    rw [hName]
    have htake : List.take 5 [c0] = [c0] := rfl
    rw [htake]
    dsimp only []
    rw [hC0Email]
    dsimp only []
    rw [if_pos ⟨hE0, hE, hDiff⟩]
    unfold createCustomer linkSourceToCustomer flagConflict
    simp only [hany]
    rfl
  · intro hEq
    have := hIds c0 hc0mem
    omega

/-- The Jane Doe store of the no-silent-merge scenario. -/
def janeStoreDemo : Store :=
  ⟨[⟨0, DEFAULT_ORG_ID, some "jane@a.com", some "Jane Doe"⟩], [], [], 1⟩

/-- Closed witness for the C2 theorem on the Jane Doe scenario, with both
    emails and the name non-empty. -/
theorem stitch_no_silent_merge_witness :
    (∀ c ∈ janeStoreDemo.customers, c.id < janeStoreDemo.nextId) ∧
    ("jane@a.com" : String) ≠ "jane@b.com" ∧
    (stitchIdentity janeStoreDemo "stripe" "s1" (some "jane@b.com") (some "Jane Doe") =
      (⟨janeStoreDemo.nextId, true, MatchedBy.name⟩,
       ⟨janeStoreDemo.customers ++
          [⟨janeStoreDemo.nextId, DEFAULT_ORG_ID, some "jane@b.com", some "Jane Doe"⟩],
        janeStoreDemo.customerSources ++
          [⟨janeStoreDemo.nextId, "stripe", "s1", some "jane@b.com", some "Jane Doe"⟩],
        janeStoreDemo.conflicts ++
          [⟨DEFAULT_ORG_ID, (⟨0, DEFAULT_ORG_ID, some "jane@a.com", some "Jane Doe"⟩ :
              Customer).id, janeStoreDemo.nextId, "name", some "Jane Doe",
            (0.6 : ℚ), "pending", Option.none⟩],
        janeStoreDemo.nextId + 1⟩) ∧
      janeStoreDemo.nextId ≠ (⟨0, DEFAULT_ORG_ID, some "jane@a.com", some "Jane Doe"⟩ :
        Customer).id) :=
  ⟨by decide, by decide,
   stitch_no_silent_merge janeStoreDemo "stripe" "s1" "jane@b.com" "Jane Doe"
     "jane@a.com" ⟨0, DEFAULT_ORG_ID, some "jane@a.com", some "Jane Doe"⟩
     (by decide) (by decide) (by decide) (by decide) (by decide) (by decide)
     (by decide) (by decide) (by decide) (by decide)⟩

/-- C2 counterexample: the frozen claim also covers the non-null empty email.
    Stitching name Jane Doe with email some "" against the store holding Jane
    with recorded email jane@a.com satisfies the claim's hypotheses (no
    external-id or email match, exactly one name match, recorded email
    different from the row's non-null email), yet the source treats "" as
    falsy: the step-3 guard fails, step 4 creates the customer with matchedBy
    none and no StitchingConflict row is inserted. -/
theorem stitch_no_silent_merge_counterexample :
    (stitchIdentity janeStoreDemo "stripe" "s1" (some "") (some "Jane Doe")).2.conflicts
      = [] ∧
    (stitchIdentity janeStoreDemo "stripe" "s1" (some "") (some "Jane Doe")).1.matchedBy
      = MatchedBy.noneMB := by
  decide

/-- The empty store. -/
def emptyStoreDemo : Store := ⟨[], [], [], 0⟩

/-- C3 counterexample: with an empty externalId (a real caller input, produced
    when the id column is missing) the external-id step is skipped, so running
    the same row twice from the empty store returns two different customer
    ids. -/
theorem stitch_idempotence_counterexample :
    (stitchIdentity (stitchIdentity emptyStoreDemo "stripe" "" Option.none
        Option.none).2 "stripe" "" Option.none Option.none).1.customerId ≠
      (stitchIdentity emptyStoreDemo "stripe" "" Option.none Option.none).1.customerId := by
  decide

/-- C3 (amended with a non-empty externalId, and the unique-constraint
    invariant that at most one CustomerSource row matches (source,
    externalId)): two successive stitchIdentity calls with the same arguments
    return the same customerId, and the second call changes nothing — in
    particular it creates no second CustomerSource row. -/
theorem stitch_idempotent (st : Store) (source externalId : String)
    (email name : Option String)
    (hExt : externalId ≠ "")
    (hUnique : (st.customerSources.filter
      (fun r => r.source == source && r.externalId == externalId)).length ≤ 1) :
    (stitchIdentity (stitchIdentity st source externalId email name).2
        source externalId email name).1.customerId =
      (stitchIdentity st source externalId email name).1.customerId ∧
    (stitchIdentity (stitchIdentity st source externalId email name).2
        source externalId email name).2 =
      (stitchIdentity st source externalId email name).2 := by
  rcases hfe : st.customerSources.filter
      (fun r => r.source == source && r.externalId == externalId) with _ | ⟨r0, rest⟩
  · have hlink := stitch_links_external_id st source externalId email name hfe
    have h2 := stitch_step1_hit (stitchIdentity st source externalId email name).2
      source externalId email name
      ⟨(stitchIdentity st source externalId email name).1.customerId,
        source, externalId, email, name⟩ hExt hlink
    rw [h2]
    exact ⟨rfl, rfl⟩
  · have hrest : rest = [] := by
      rw [hfe] at hUnique
      simp only [List.length_cons] at hUnique
      exact List.length_eq_zero.mp (by omega)
    subst hrest
    have h1 := stitch_step1_hit st source externalId email name r0 hExt hfe
    rw [h1]
    dsimp only []
    rw [h1]
    exact ⟨rfl, rfl⟩

/-- Closed witness for the C3 theorem: the same row stitched twice into the
    empty store with a non-empty external id. -/
theorem stitch_idempotent_witness :
    ("x1" : String) ≠ "" ∧
    ((emptyStoreDemo.customerSources.filter
      (fun r => r.source == "stripe" && r.externalId == "x1")).length ≤ 1) ∧
    ((stitchIdentity (stitchIdentity emptyStoreDemo "stripe" "x1" (some "a@b.co")
          (some "Al")).2 "stripe" "x1" (some "a@b.co") (some "Al")).1.customerId =
      (stitchIdentity emptyStoreDemo "stripe" "x1" (some "a@b.co") (some "Al")).1.customerId ∧
     (stitchIdentity (stitchIdentity emptyStoreDemo "stripe" "x1" (some "a@b.co")
          (some "Al")).2 "stripe" "x1" (some "a@b.co") (some "Al")).2 =
      (stitchIdentity emptyStoreDemo "stripe" "x1" (some "a@b.co") (some "Al")).2) :=
  ⟨by decide, by decide,
   stitch_idempotent emptyStoreDemo "stripe" "x1" (some "a@b.co") (some "Al")
     (by decide) (by decide)⟩

/-! ## Association-list lemmas -/

theorem alistGet_some_mem {β : Type} {l : List (String × β)} {k : String} {v : β}
    (h : alistGet l k = some v) : (k, v) ∈ l := by
  induction l with
  | nil => cases h
  | cons x xs ih =>
    rcases x with ⟨k0, v0⟩
    simp only [alistGet] at h
    by_cases hk : k = k0
    · rw [if_pos hk] at h
      cases h
      subst hk
      exact List.mem_cons_self _ _
    · rw [if_neg hk] at h
      exact List.mem_cons_of_mem _ (ih h)

theorem alistGet_of_mem {β : Type} {l : List (String × β)} {k : String} {v : β}
    (hnd : (keysOf l).Nodup) (h : (k, v) ∈ l) : alistGet l k = some v := by
  induction l with
  | nil => cases h
  | cons x xs ih =>
    rcases x with ⟨k0, v0⟩
    rcases List.mem_cons.mp h with h0 | hmem
    · cases h0
      simp [alistGet]
    · have hk : k ≠ k0 := by
        intro hEq
        subst hEq
        have hmap : k ∈ keysOf xs := by
          simp only [keysOf]
          exact List.mem_map_of_mem Prod.fst hmem
        exact (List.nodup_cons.mp hnd).1 hmap
      simp only [alistGet, if_neg hk]
      exact ih (List.nodup_cons.mp hnd).2 hmem

theorem alistGet_set_self {β : Type} (l : List (String × β)) (k : String) (v : β) :
    alistGet (alistSet l k v) k = some v := by
  induction l with
  | nil => simp [alistSet, alistGet]
  | cons x xs ih =>
    rcases x with ⟨k0, v0⟩
    simp only [alistSet]
    by_cases hk : k = k0
    · rw [if_pos hk]
      simp [alistGet]
    · rw [if_neg hk]
      simp only [alistGet, if_neg hk]
      exact ih

theorem alistGet_set_other {β : Type} (l : List (String × β)) (k q : String) (v : β)
    (hq : q ≠ k) : alistGet (alistSet l k v) q = alistGet l q := by
  induction l with
  | nil => simp [alistSet, alistGet, hq]
  | cons x xs ih =>
    rcases x with ⟨k0, v0⟩
    simp only [alistSet]
    by_cases hk : k = k0
    · subst hk
      simp only [alistGet, if_neg hq]
    · rw [if_neg hk]
      simp only [alistGet]
      by_cases hq0 : q = k0
      · rw [if_pos hq0, if_pos hq0]
      · rw [if_neg hq0, if_neg hq0]
        exact ih

theorem keysOf_set_sub {β : Type} (l : List (String × β)) (k : String) (v : β) :
    ∀ q ∈ keysOf (alistSet l k v), q ∈ keysOf l ∨ q = k := by
  induction l with
  | nil =>
    intro q hq
    simp only [alistSet, keysOf, List.map_cons, List.map_nil, List.mem_singleton] at hq
    exact Or.inr hq
  | cons x xs ih =>
    rcases x with ⟨k0, v0⟩
    intro q hq
    simp only [alistSet] at hq
    by_cases hk : k = k0
    · rw [if_pos hk] at hq
      simp only [keysOf, List.map_cons, List.mem_cons] at hq ⊢
      rcases hq with h | h
      · exact Or.inr h
      · exact Or.inl (Or.inr h)
    · rw [if_neg hk] at hq
      simp only [keysOf, List.map_cons, List.mem_cons] at hq ⊢
      rcases hq with h | h
      · exact Or.inl (Or.inl h)
      · rcases ih q h with h2 | h2
        · exact Or.inl (Or.inr h2)
        · exact Or.inr h2

theorem keysOf_set_nodup {β : Type} (l : List (String × β)) (k : String) (v : β)
    (hnd : (keysOf l).Nodup) : (keysOf (alistSet l k v)).Nodup := by
  induction l with
  | nil => simp [alistSet, keysOf]
  | cons x xs ih =>
    rcases x with ⟨k0, v0⟩
    simp only [alistSet]
    by_cases hk : k = k0
    · subst hk
      rw [if_pos rfl]
      simp only [keysOf, List.map_cons, List.nodup_cons] at hnd ⊢
      exact hnd
    · rw [if_neg hk]
      simp only [keysOf, List.map_cons, List.nodup_cons] at hnd ⊢
      refine ⟨?_, ih hnd.2⟩
      intro hmem
      rcases keysOf_set_sub xs k v k0 hmem with h | h
      · exact hnd.1 h
      · exact hk h.symm

theorem alistGet_delete_other {β : Type} (l : List (String × β)) (k q : String)
    (hq : q ≠ k) : alistGet (alistDelete l k) q = alistGet l q := by
  induction l with
  | nil => simp [alistDelete]
  | cons x xs ih =>
    rcases x with ⟨k0, v0⟩
    simp only [alistDelete]
    by_cases hk : k = k0
    · subst hk
      rw [if_pos rfl]
      simp only [alistGet, if_neg hq]
    · rw [if_neg hk]
      simp only [alistGet]
      by_cases hq0 : q = k0
      · rw [if_pos hq0, if_pos hq0]
      · rw [if_neg hq0, if_neg hq0]
        exact ih

theorem keysOf_delete_sublist {β : Type} (l : List (String × β)) (k : String) :
    (keysOf (alistDelete l k)).Sublist (keysOf l) := by
  induction l with
  | nil => simp [alistDelete]
  | cons x xs ih =>
    rcases x with ⟨k0, v0⟩
    simp only [alistDelete]
    by_cases hk : k = k0
    · rw [if_pos hk]
      exact List.sublist_cons_self _ _
    · rw [if_neg hk]
      simp only [keysOf, List.map_cons]
      exact List.Sublist.cons₂ _ ih

theorem keysOf_delete_nodup {β : Type} (l : List (String × β)) (k : String)
    (hnd : (keysOf l).Nodup) : (keysOf (alistDelete l k)).Nodup :=
  (keysOf_delete_sublist l k).nodup hnd

theorem alistGet_delete_self {β : Type} (l : List (String × β)) (k : String)
    (hnd : (keysOf l).Nodup) : alistGet (alistDelete l k) k = Option.none := by
  induction l with
  | nil => simp [alistDelete, alistGet]
  | cons x xs ih =>
    rcases x with ⟨k0, v0⟩
    simp only [alistDelete]
    by_cases hk : k = k0
    · subst hk
      rcases List.nodup_cons.mp hnd with ⟨h0, _⟩
      rw [if_pos rfl]
      cases hget : alistGet xs k with
      | none => rfl
      | some v =>
        exact absurd (by
          simpa only [keysOf] using
            List.mem_map_of_mem Prod.fst (alistGet_some_mem hget)) h0
    · rw [if_neg hk]
      simp only [alistGet, if_neg hk]
      exact ih (List.nodup_cons.mp hnd).2

theorem alist_mem_unique {β : Type} {l : List (String × β)} {k : String} {v1 v2 : β}
    (hnd : (keysOf l).Nodup) (h1 : (k, v1) ∈ l) (h2 : (k, v2) ∈ l) : v1 = v2 := by
  have g1 := alistGet_of_mem hnd h1
  have g2 := alistGet_of_mem hnd h2
  rw [g1] at g2
  cases g2
  rfl

/-! ## Stable-sort lemmas -/

theorem stableInsert_perm {α : Type} (prec : α → α → Bool) (x : α) (l : List α) :
    (stableInsert prec x l).Perm (x :: l) := by
  induction l with
  | nil => rw [stableInsert]
  | cons y ys ih =>
    rw [stableInsert]
    by_cases hp : prec x y
    · rw [if_pos hp]
    · rw [if_neg hp]
      exact (List.Perm.cons y ih).trans (List.Perm.swap x y ys)

theorem stableSort_perm {α : Type} (prec : α → α → Bool) (l : List α) :
    (stableSort prec l).Perm l := by
  suffices h : ∀ (l : List α) (acc : List α),
      (l.foldl (fun acc x => stableInsert prec x acc) acc).Perm (acc ++ l) by
    simpa using h l []
  intro l
  induction l with
  | nil => intro acc; simp
  | cons x xs ih =>
    intro acc
    rw [List.foldl_cons]
    refine (ih (stableInsert prec x acc)).trans ?_
    refine (List.Perm.append_right xs (stableInsert_perm prec x acc)).trans ?_
    exact List.perm_middle.symm

/-! ## Grouping lemmas for the conflict-resolution pass -/

theorem mem_alistSet_self {β : Type} (l : List (String × β)) (k : String) (v : β) :
    (k, v) ∈ alistSet l k v :=
  alistGet_some_mem (alistGet_set_self l k v)

theorem mem_alistSet_of_mem {β : Type} {l : List (String × β)} {p : String × β}
    (k : String) (v : β) (hp : p ∈ l) (hne : p.1 ≠ k) : p ∈ alistSet l k v := by
  induction l with
  | nil => cases hp
  | cons x xs ih =>
    rcases x with ⟨k0, v0⟩
    simp only [alistSet]
    by_cases hk : k = k0
    · rw [if_pos hk]
      rcases List.mem_cons.mp hp with h0 | hmem
      · subst h0
        exact absurd hk.symm (by simpa using hne)
      · exact List.mem_cons_of_mem _ hmem
    · rw [if_neg hk]
      rcases List.mem_cons.mp hp with h0 | hmem
      · exact h0 ▸ List.mem_cons_self _ _
      · exact List.mem_cons_of_mem _ (ih hmem)

theorem mem_alistSet_of {β : Type} {l : List (String × β)} {k : String} {v : β}
    {p : String × β} (hnd : (keysOf l).Nodup) (hp : p ∈ alistSet l k v) :
    p = (k, v) ∨ (p ∈ l ∧ p.1 ≠ k) := by
  induction l with
  | nil =>
    simp only [alistSet, List.mem_singleton] at hp
    exact Or.inl hp
  | cons x xs ih =>
    rcases x with ⟨k0, v0⟩
    simp only [alistSet] at hp
    by_cases hk : k = k0
    · rw [if_pos hk] at hp
      subst hk
      rcases List.mem_cons.mp hp with h0 | hmem
      · exact Or.inl h0
      · refine Or.inr ⟨List.mem_cons_of_mem _ hmem, ?_⟩
        intro hEq
        have hin : p.1 ∈ keysOf xs := by
          simp only [keysOf]
          exact List.mem_map_of_mem Prod.fst hmem
        rw [hEq] at hin
        exact (List.nodup_cons.mp hnd).1 hin
    · rw [if_neg hk] at hp
      rcases List.mem_cons.mp hp with h0 | hmem
      · refine Or.inr ⟨h0 ▸ List.mem_cons_self _ _, ?_⟩
        rw [h0]
        exact fun hEq => hk hEq.symm
      · rcases ih (List.nodup_cons.mp hnd).2 hmem with h | ⟨hin, hne⟩
        · exact Or.inl h
        · exact Or.inr ⟨List.mem_cons_of_mem _ hin, hne⟩

/-- The invariant of the fieldToHeaders grouping fold: over the processed
    prefix p of the header scores, the accumulator acc has unique field keys,
    every group entry names an entry of p, every entry of p is in its group,
    and each group's headers are distinct keys of p. -/
def GroupInvariant (p : List (String × BestMatch))
    (acc : List (String × List HeaderScore)) : Prop :=
  (keysOf acc).Nodup ∧
  (∀ g ∈ acc, ∀ x ∈ g.2,
    ((x.csvHeader, (⟨g.1, x.confidence, x.matchType⟩ : BestMatch)) : String × BestMatch) ∈ p) ∧
  (∀ e ∈ p, ∃ ms, (e.2.field, ms) ∈ acc ∧
    (⟨e.1, e.2.confidence, e.2.matchType⟩ : HeaderScore) ∈ ms) ∧
  (∀ g ∈ acc, (g.2.map HeaderScore.csvHeader).Nodup ∧
    ∀ x ∈ g.2, x.csvHeader ∈ keysOf p)

theorem groupByField_aux :
    ∀ (rest p : List (String × BestMatch)) (acc : List (String × List HeaderScore)),
      (keysOf (p ++ rest)).Nodup → GroupInvariant p acc →
      GroupInvariant (p ++ rest)
        (rest.foldl
          (fun acc entry =>
            alistSet acc entry.2.field
              ((alistGet acc entry.2.field).getD [] ++
                [⟨entry.1, entry.2.confidence, entry.2.matchType⟩])) acc) := by
  intro rest
  induction rest with
  | nil =>
    intro p acc _ hInv
    simpa using hInv
  | cons e es ih =>
    intro p acc hnd hInv
    rcases e with ⟨h, m⟩
    have hstep : GroupInvariant (p ++ [(h, m)])
        (alistSet acc m.field
          ((alistGet acc m.field).getD [] ++ [⟨h, m.confidence, m.matchType⟩])) := by
      rcases hInv with ⟨hK, hSound, hComp, hHead⟩
      have hhp : h ∉ keysOf p := by
        intro hin
        have : h ∈ keysOf (p ++ (h, m) :: es) := by
          simp only [keysOf, List.map_append]
          exact List.mem_append_left _ hin
        have hnodup := hnd
        simp only [keysOf, List.map_append, List.map_cons] at hnodup
        rcases List.nodup_append.mp hnodup with ⟨_, _, hdisj⟩
        exact hdisj (by simpa [keysOf] using hin) (List.mem_cons_self _ _)
      set x : HeaderScore := ⟨h, m.confidence, m.matchType⟩ with hx
      set old : List HeaderScore := (alistGet acc m.field).getD [] with hold
      have holdMem : ∀ y ∈ old, (y.csvHeader,
          (⟨m.field, y.confidence, y.matchType⟩ : BestMatch)) ∈ p ∧
          y.csvHeader ∈ keysOf p := by
        intro y hy
        cases hget : alistGet acc m.field with
        | none =>
          rw [hold, hget] at hy
          cases hy
        | some ms0 =>
          rw [hold, hget] at hy
          simp only [Option.getD_some] at hy
          have hin := alistGet_some_mem hget
          exact ⟨hSound (m.field, ms0) hin y hy, (hHead (m.field, ms0) hin).2 y hy⟩
      have holdNodup : (old.map HeaderScore.csvHeader).Nodup := by
        cases hget : alistGet acc m.field with
        | none => simp [hold, hget]
        | some ms0 =>
          have hin := alistGet_some_mem hget
          simpa [hold, hget] using (hHead (m.field, ms0) hin).1
      refine ⟨keysOf_set_nodup _ _ _ hK, ?_, ?_, ?_⟩
      · intro g hg y hy
        rcases mem_alistSet_of hK hg with hEq | ⟨hin, _⟩
        · subst hEq
          rcases List.mem_append.mp hy with hyo | hyx
          · exact List.mem_append_left _ (holdMem y hyo).1
          · rw [List.mem_singleton] at hyx
            subst hyx
            exact List.mem_append_right _ (by simp [hx])
        · exact List.mem_append_left _ (hSound g hin y hy)
      · intro e he
        rcases List.mem_append.mp he with hep | hee
        · rcases hComp e hep with ⟨ms, hms, hxe⟩
          by_cases hf : e.2.field = m.field
          · have hgot : alistGet acc m.field = some ms := by
              rw [← hf]
              exact alistGet_of_mem hK (hf ▸ hms)
            refine ⟨old ++ [x], hf ▸ mem_alistSet_self _ _ _, ?_⟩
            apply List.mem_append_left
            rw [hold, hgot]
            simpa using hxe
          · exact ⟨ms, mem_alistSet_of_mem _ _ hms hf, hxe⟩
        · rw [List.mem_singleton] at hee
          subst hee
          exact ⟨old ++ [x], mem_alistSet_self _ _ _,
            List.mem_append_right _ (by simp [hx])⟩
      · intro g hg
        rcases mem_alistSet_of hK hg with hEq | ⟨hin, _⟩
        · subst hEq
          constructor
          · rw [List.map_append]
            rw [List.nodup_append]
            refine ⟨holdNodup, by simp, ?_⟩
            intro a ha hb
            simp only [List.map_cons, List.map_nil, List.mem_singleton, hx] at hb
            subst hb
            rcases List.mem_map.mp ha with ⟨y, hy, hyh⟩
            exact hhp (hyh ▸ (holdMem y hy).2)
          · intro y hy
            rcases List.mem_append.mp hy with hyo | hyx
            · have := (holdMem y hyo).2
              simp only [keysOf, List.map_append]
              exact List.mem_append_left _ this
            · rw [List.mem_singleton] at hyx
              subst hyx
              simp [hx, keysOf, List.map_append]
        · rcases hHead g hin with ⟨hnd2, hsub⟩
          refine ⟨hnd2, ?_⟩
          intro y hy
          simp only [keysOf, List.map_append]
          exact List.mem_append_left _ (hsub y hy)
    have hnd2 : (keysOf ((p ++ [(h, m)]) ++ es)).Nodup := by
      simpa using hnd
    have := ih (p ++ [(h, m)]) _ hnd2 hstep
    simpa using this

theorem groupByField_invariant (hs : List (String × BestMatch))
    (hnd : (keysOf hs).Nodup) : GroupInvariant hs (groupByField hs) := by
  have h0 : GroupInvariant [] ([] : List (String × List HeaderScore)) := by
    refine ⟨by simp [keysOf], ?_, ?_, ?_⟩
    · intro g hg; cases hg
    · intro e he; cases he
    · intro g hg; cases hg
  have := groupByField_aux hs [] [] (by simpa using hnd) h0
  simpa [groupByField] using this

/-! ## Conflict-resolution pass invariants -/

theorem folddel_nodup (xs : List HeaderScore) :
    ∀ cur : List (String × BestMatch), (keysOf cur).Nodup →
      (keysOf (xs.foldl (fun acc x => alistDelete acc x.csvHeader) cur)).Nodup := by
  induction xs with
  | nil => intro cur h; exact h
  | cons x xs ih =>
    intro cur h
    exact ih _ (keysOf_delete_nodup _ _ h)

theorem folddel_get_some {xs : List HeaderScore} :
    ∀ {cur : List (String × BestMatch)} {h : String} {m : BestMatch},
      (keysOf cur).Nodup →
      alistGet (xs.foldl (fun acc x => alistDelete acc x.csvHeader) cur) h = some m →
      alistGet cur h = some m ∧ h ∉ xs.map HeaderScore.csvHeader := by
  induction xs with
  | nil =>
    intro cur h m _ hget
    exact ⟨hget, by simp⟩
  | cons x xs ih =>
    intro cur h m hnd hget
    rcases ih (keysOf_delete_nodup _ _ hnd) hget with ⟨hdel, hnot⟩
    by_cases hx : h = x.csvHeader
    · rw [hx, alistGet_delete_self _ _ hnd] at hdel
      cases hdel
    · rw [alistGet_delete_other _ _ _ hx] at hdel
      refine ⟨hdel, ?_⟩
      intro hin
      rcases List.mem_cons.mp hin with h0 | h1
      · exact hx h0
      · exact hnot h1

/-- Value preservation: every surviving binding was already in hs. -/
def PassVP (hs cur : List (String × BestMatch)) : Prop :=
  ∀ h m, alistGet cur h = some m → (h, m) ∈ hs

/-- Field uniqueness outside the still-unprocessed field keys ks. -/
def PassU (cur : List (String × BestMatch)) (ks : List String) : Prop :=
  ∀ h1 h2 m1 m2, alistGet cur h1 = some m1 → alistGet cur h2 = some m2 →
    m1.field = m2.field → m1.field ∉ ks → h1 = h2

theorem resolveGroup_invariant {hs : List (String × BestMatch)}
    {g : List (String × List HeaderScore)} (hGI : GroupInvariant hs g)
    (hhs : (keysOf hs).Nodup)
    {f : String} {ms : List HeaderScore} (hfg : (f, ms) ∈ g)
    {cur : List (String × BestMatch)} {ks : List String}
    (hKN : (keysOf cur).Nodup) (hVP : PassVP hs cur) (hU : PassU cur (f :: ks)) :
    (keysOf (resolveGroup cur f ms)).Nodup ∧ PassVP hs (resolveGroup cur f ms) ∧
      PassU (resolveGroup cur f ms) ks := by
  rcases hGI with ⟨gK, gSound, gComp, _⟩
  have hperm0 : (if ms.length > 1 then stableSort confDescPrec ms else ms).Perm ms := by
    split
    · exact stableSort_perm _ _
    · exact List.Perm.refl _
  rcases hsor : (if ms.length > 1 then stableSort confDescPrec ms else ms) with _ | ⟨w, rest⟩
  · have hres : resolveGroup cur f ms = cur := by
      unfold resolveGroup
      rw [hsor]
    rw [hsor] at hperm0
    have hmsnil : ms = [] := (List.Perm.nil_eq hperm0).symm
    have hnofield : ∀ h m, alistGet cur h = some m → m.field ≠ f := by
      intro h m hget hEq
      have hmem := hVP h m hget
      rcases gComp (h, m) hmem with ⟨ms', hms', hx⟩
      have : ms' = ms := alist_mem_unique gK (hEq ▸ hms') hfg
      rw [this, hmsnil] at hx
      cases hx
    rw [hres]
    refine ⟨hKN, hVP, ?_⟩
    intro h1 h2 m1 m2 hg1 hg2 hff hks
    refine hU h1 h2 m1 m2 hg1 hg2 hff ?_
    intro hin
    rcases List.mem_cons.mp hin with h0 | h1'
    · exact hnofield h1 m1 hg1 h0
    · exact hks h1'
  · have hres : resolveGroup cur f ms =
        alistSet (rest.foldl (fun acc x => alistDelete acc x.csvHeader) cur)
          w.csvHeader ⟨f, w.confidence, w.matchType⟩ := by
      unfold resolveGroup
      rw [hsor]
    rw [hsor] at hperm0
    have hwms : w ∈ ms := hperm0.mem_iff.mp (List.mem_cons_self _ _)
    have hwhs : (w.csvHeader, (⟨f, w.confidence, w.matchType⟩ : BestMatch)) ∈ hs :=
      gSound (f, ms) hfg w hwms
    have hdelnd := folddel_nodup rest cur hKN
    rw [hres]
    refine ⟨keysOf_set_nodup _ _ _ hdelnd, ?_, ?_⟩
    · intro h m hget
      by_cases hw : h = w.csvHeader
      · subst hw
        rw [alistGet_set_self] at hget
        cases hget
        exact hwhs
      · rw [alistGet_set_other _ _ _ _ hw] at hget
        rcases folddel_get_some hKN hget with ⟨hcur, _⟩
        exact hVP h m hcur
    · intro h1 h2 m1 m2 hg1 hg2 hff hks
      have main : ∀ h m, alistGet (alistSet
          (rest.foldl (fun acc x => alistDelete acc x.csvHeader) cur)
          w.csvHeader ⟨f, w.confidence, w.matchType⟩) h = some m →
          m.field = f → h = w.csvHeader := by
        intro h m hget hmf
        by_cases hw : h = w.csvHeader
        · exact hw
        · exfalso
          rw [alistGet_set_other _ _ _ _ hw] at hget
          rcases folddel_get_some hKN hget with ⟨hcur, hnotrest⟩
          have hmem := hVP h m hcur
          rcases gComp (h, m) hmem with ⟨ms', hms', hx⟩
          have hmseq : ms' = ms := alist_mem_unique gK (hmf ▸ hms') hfg
          rw [hmseq] at hx
          have hxin : (⟨h, m.confidence, m.matchType⟩ : HeaderScore) ∈ w :: rest :=
            hperm0.mem_iff.mpr hx
          rcases List.mem_cons.mp hxin with h0 | h1'
          · exact hw (congrArg HeaderScore.csvHeader h0)
          · exact hnotrest (List.mem_map_of_mem HeaderScore.csvHeader h1')
      by_cases hmf : m1.field = f
      · have e1 := main h1 m1 hg1 hmf
        have e2 := main h2 m2 hg2 (hff ▸ hmf)
        rw [e1, e2]
      · have hw1 : h1 ≠ w.csvHeader := by
          intro hEq
          rw [hEq, alistGet_set_self] at hg1
          cases hg1
          exact hmf rfl
        have hw2 : h2 ≠ w.csvHeader := by
          intro hEq
          rw [hEq, alistGet_set_self] at hg2
          cases hg2
          exact hmf (hff ▸ rfl)
        rw [alistGet_set_other _ _ _ _ hw1] at hg1
        rw [alistGet_set_other _ _ _ _ hw2] at hg2
        rcases folddel_get_some hKN hg1 with ⟨hc1, _⟩
        rcases folddel_get_some hKN hg2 with ⟨hc2, _⟩
        refine hU h1 h2 m1 m2 hc1 hc2 hff ?_
        intro hin
        rcases List.mem_cons.mp hin with h0 | h1'
        · exact hmf h0
        · exact hks h1'

theorem resolvePass_aux {hs : List (String × BestMatch)}
    {g : List (String × List HeaderScore)} (hGI : GroupInvariant hs g)
    (hhs : (keysOf hs).Nodup) :
    ∀ (todo : List (String × List HeaderScore)), (∀ q ∈ todo, q ∈ g) →
      (keysOf todo).Nodup →
      ∀ cur : List (String × BestMatch), (keysOf cur).Nodup → PassVP hs cur →
        PassU cur (keysOf todo) →
        (keysOf (todo.foldl (fun cur entry => resolveGroup cur entry.1 entry.2) cur)).Nodup ∧
        PassVP hs (todo.foldl (fun cur entry => resolveGroup cur entry.1 entry.2) cur) ∧
        PassU (todo.foldl (fun cur entry => resolveGroup cur entry.1 entry.2) cur) [] := by
  intro todo
  induction todo with
  | nil =>
    intro _ _ cur hKN hVP hU
    exact ⟨hKN, hVP, fun h1 h2 m1 m2 a b c _ => hU h1 h2 m1 m2 a b c (by simp [keysOf])⟩
  | cons q todo ih =>
    intro hsub hnd cur hKN hVP hU
    rcases q with ⟨f, ms⟩
    have hstep := resolveGroup_invariant hGI hhs (hsub (f, ms) (List.mem_cons_self _ _))
      hKN hVP hU
    rcases hstep with ⟨hKN2, hVP2, hU2⟩
    exact ih (fun p hp => hsub p (List.mem_cons_of_mem _ hp))
      (by
        have h2 := hnd
        simp only [keysOf, List.map_cons, List.nodup_cons] at h2
        exact h2.2)
      _ hKN2 hVP2 hU2

theorem resolvePass_props (hs : List (String × BestMatch))
    (hnd : (keysOf hs).Nodup) :
    (keysOf (resolvePass hs)).Nodup ∧ PassVP hs (resolvePass hs) ∧
      PassU (resolvePass hs) [] := by
  have hGI := groupByField_invariant hs hnd
  have hbase : PassU hs (keysOf (groupByField hs)) := by
    intro h1 h2 m1 m2 hg1 _ _ hnin
    exfalso
    rcases hGI with ⟨_, _, gComp, _⟩
    rcases gComp (h1, m1) (alistGet_some_mem hg1) with ⟨ms, hms, _⟩
    exact hnin (by
      simpa only [keysOf] using List.mem_map_of_mem Prod.fst hms)
  exact resolvePass_aux hGI hnd (groupByField hs) (fun q hq => hq) hGI.1 hs hnd
    (fun h m hget => alistGet_some_mem hget) hbase

/-! ## First-pass lemmas -/

theorem firstPass_nodup (fields : List SchemaField) (sampleRows : List RawRow)
    (csvHeaders : List String) :
    (keysOf (firstPass fields sampleRows csvHeaders)).Nodup := by
  suffices h : ∀ (headers : List String) (acc : List (String × BestMatch)),
      (keysOf acc).Nodup →
      (keysOf (headers.foldl
        (fun hs h =>
          match bestMatchFor fields sampleRows h with
          | Option.none => hs
          | some m => alistSet hs h m) acc)).Nodup by
    exact h csvHeaders [] (by simp [keysOf])
  intro headers
  induction headers with
  | nil => intro acc hacc; exact hacc
  | cons hd tl ih =>
    intro acc hacc
    rw [List.foldl_cons]
    cases hbm : bestMatchFor fields sampleRows hd with
    | none => exact ih acc hacc
    | some m => exact ih _ (keysOf_set_nodup _ _ _ hacc)

theorem firstPass_step_get (fields : List SchemaField) (sampleRows : List RawRow)
    (acc : List (String × BestMatch)) (hd h : String) :
    alistGet (match bestMatchFor fields sampleRows hd with
      | Option.none => acc
      | some m => alistSet acc hd m) h =
    if h = hd then (bestMatchFor fields sampleRows hd).elim (alistGet acc h) some
    else alistGet acc h := by
  cases hbm : bestMatchFor fields sampleRows hd with
  | none =>
    by_cases hh : h = hd
    · rw [if_pos hh]
      rfl
    · rw [if_neg hh]
  | some m =>
    by_cases hh : h = hd
    · rw [if_pos hh, hh, alistGet_set_self]
      rfl
    · rw [if_neg hh, alistGet_set_other _ _ _ _ hh]

theorem firstPass_get_aux (fields : List SchemaField) (sampleRows : List RawRow) :
    ∀ (headers : List String) (acc : List (String × BestMatch)) (h : String),
      alistGet (headers.foldl
        (fun hs hd =>
          match bestMatchFor fields sampleRows hd with
          | Option.none => hs
          | some m => alistSet hs hd m) acc) h =
      if h ∈ headers then (bestMatchFor fields sampleRows h).elim (alistGet acc h) some
      else alistGet acc h := by
  intro headers
  induction headers with
  | nil =>
    intro acc h
    simp
  | cons hd tl ih =>
    intro acc h
    rw [List.foldl_cons, ih _ h]
    by_cases hmem : h ∈ tl
    · rw [if_pos hmem, if_pos (List.mem_cons_of_mem _ hmem)]
      cases hbm : bestMatchFor fields sampleRows h with
      | some m => rfl
      | none =>
        simp only [Option.elim]
        rw [firstPass_step_get]
        by_cases hh : h = hd
        · subst hh
          rw [if_pos rfl, hbm]
          rfl
        · rw [if_neg hh]
    · rw [if_neg hmem, firstPass_step_get]
      by_cases hh : h = hd
      · rw [if_pos hh, if_pos (hh ▸ List.mem_cons_self hd tl), hh]
      · rw [if_neg hh, if_neg (by
          intro hin
          rcases List.mem_cons.mp hin with h0 | h1
          · exact hh h0
          · exact hmem h1)]

theorem firstPass_get (fields : List SchemaField) (sampleRows : List RawRow)
    (csvHeaders : List String) (h : String) (hmem : h ∈ csvHeaders) :
    alistGet (firstPass fields sampleRows csvHeaders) h =
      bestMatchFor fields sampleRows h := by
  have haux := firstPass_get_aux fields sampleRows csvHeaders [] h
  rw [if_pos hmem] at haux
  rw [firstPass, haux]
  cases bestMatchFor fields sampleRows h with
  | none => rfl
  | some m => rfl

/-! ## Claim C1 -/

/-- A two-field schema with aliases, for instantiating the mapper theorems. -/
def mapperDemoSchema : SourceSchema :=
  ⟨"stripe", "Stripe",
   [⟨"email", "Email", FieldType.email, true, ["email address"], Option.none, Option.none⟩,
    ⟨"name", "Name", FieldType.text, true, ["full_name"], Option.none, Option.none⟩],
   "id", "email", "name"⟩

/-- The single schema field keyed email of the counterexample schema. -/
def emailOnlyField : SchemaField :=
  ⟨"email", "Email", FieldType.email, true, [], Option.none, Option.none⟩

/-- A one-field schema keyed email, for the mapper counterexamples. -/
def emailOnlySchema : SourceSchema :=
  ⟨"stripe", "Stripe", [emailOnlyField], "id", "email", "name"⟩

/-- C1 counterexample: with the duplicate header list [email, email] both
    copies receive the same non-null schemaField email, because the final
    suggestion loop reads a Map keyed by the header string. -/
theorem mapping_injective_counterexample :
    ¬ List.Pairwise (fun s t : MappingSuggestion =>
        s.schemaField = Option.none ∨ s.schemaField ≠ t.schemaField)
      (generateMappingSuggestions ["email", "email"] emailOnlySchema []) := by
  with_unfolding_all decide

/-- C1 (amended to header lists without duplicate header strings): the
    suggestion list never contains two suggestions with the same non-null
    schemaField — the final mapping is injective.  With duplicate headers each
    copy receives the same suggestion, so injectivity can fail there. -/
theorem mapping_injective_of_nodup (csvHeaders : List String) (schema : SourceSchema)
    (sampleRows : List RawRow) (hnd : csvHeaders.Nodup) :
    List.Pairwise (fun s t : MappingSuggestion =>
        s.schemaField = Option.none ∨ s.schemaField ≠ t.schemaField)
      (generateMappingSuggestions csvHeaders schema sampleRows) := by
  have hfpn := firstPass_nodup (stableSort requiredFirstPrec schema.fields)
    sampleRows csvHeaders
  obtain ⟨_, _, hUfin⟩ := resolvePass_props _ hfpn
  unfold generateMappingSuggestions generateMappingSuggestionsCore buildSuggestions
  rw [List.pairwise_map]
  refine hnd.imp ?_
  intro h1 h2 hne
  cases hg1 : alistGet (resolvePass (firstPass (stableSort requiredFirstPrec schema.fields)
      sampleRows csvHeaders)) h1 with
  | none => exact Or.inl rfl
  | some m1 =>
    cases hg2 : alistGet (resolvePass (firstPass (stableSort requiredFirstPrec schema.fields)
        sampleRows csvHeaders)) h2 with
    | none =>
      refine Or.inr ?_
      simp
    | some m2 =>
      refine Or.inr ?_
      simp only [ne_eq, Option.some.injEq]
      intro hEq
      exact hne (hUfin h1 h2 m1 m2 hg1 hg2 hEq (List.not_mem_nil _))

/-- Closed witness for the C1 theorem on a duplicate-free header list. -/
theorem mapping_injective_of_nodup_witness :
    (["Email Address", "full_name"] : List String).Nodup ∧
    List.Pairwise (fun s t : MappingSuggestion =>
        s.schemaField = Option.none ∨ s.schemaField ≠ t.schemaField)
      (generateMappingSuggestions ["Email Address", "full_name"] mapperDemoSchema []) :=
  ⟨by decide, mapping_injective_of_nodup ["Email Address", "full_name"]
    mapperDemoSchema [] (by decide)⟩

/-! ## Per-header scoring lemmas -/

theorem checkSamplePattern_le (sampleRows : List RawRow) (csvHeader : String)
    (pattern : String → Bool) :
    checkSamplePattern sampleRows csvHeader pattern ≤ 0.85 := by
  unfold checkSamplePattern
  split
  · norm_num
  · have hle : ∀ (rows : List RawRow) (acc : ℕ × ℕ), acc.1 ≤ acc.2 →
        (rows.foldl
          (fun (acc : ℕ × ℕ) row =>
            match alistGet row csvHeader with
            | Option.none => acc
            | some v =>
              let val := trimJS v
              if val = "" then acc
              else ((if pattern val then acc.1 + 1 else acc.1), acc.2 + 1)) acc).1 ≤
        (rows.foldl
          (fun (acc : ℕ × ℕ) row =>
            match alistGet row csvHeader with
            | Option.none => acc
            | some v =>
              let val := trimJS v
              if val = "" then acc
              else ((if pattern val then acc.1 + 1 else acc.1), acc.2 + 1)) acc).2 := by
      intro rows
      induction rows with
      | nil => intro acc h; exact h
      | cons r rows ih =>
        intro acc h
        rw [List.foldl_cons]
        apply ih
        cases alistGet r csvHeader with
        | none => exact h
        | some v =>
          dsimp only []
          split
          · exact h
          · split <;> simp <;> omega
    dsimp only []
    split
    · norm_num
    · rename_i hnz
      have hc := hle sampleRows (0, 0) (le_refl 0)
      have hpos : (0 : ℚ) < ((sampleRows.foldl
          (fun (acc : ℕ × ℕ) row =>
            match alistGet row csvHeader with
            | Option.none => acc
            | some v =>
              let val := trimJS v
              if val = "" then acc
              else ((if pattern val then acc.1 + 1 else acc.1), acc.2 + 1)) (0, 0)).2 : ℚ) := by
        exact_mod_cast Nat.pos_of_ne_zero hnz
      have hdiv : ((sampleRows.foldl
          (fun (acc : ℕ × ℕ) row =>
            match alistGet row csvHeader with
            | Option.none => acc
            | some v =>
              let val := trimJS v
              if val = "" then acc
              else ((if pattern val then acc.1 + 1 else acc.1), acc.2 + 1)) (0, 0)).1 : ℚ) /
          ((sampleRows.foldl
          (fun (acc : ℕ × ℕ) row =>
            match alistGet row csvHeader with
            | Option.none => acc
            | some v =>
              let val := trimJS v
              if val = "" then acc
              else ((if pattern val then acc.1 + 1 else acc.1), acc.2 + 1)) (0, 0)).2 : ℚ) ≤ 1 := by
        rw [div_le_one hpos]
        exact_mod_cast hc
      calc _ ≤ (1 : ℚ) * 0.85 := by
            apply mul_le_mul_of_nonneg_right hdiv
            norm_num
        _ = 0.85 := one_mul _

/-- Well-formedness of a best-match accumulator: confidence at most 1, and
    confidence 1 only for an exact match. -/
def ScoreWF (b : Option BestMatch) : Prop :=
  ∀ m, b = some m → m.confidence ≤ 1 ∧ (m.confidence = 1 → m.matchType = MatchType.exactM)

/-- The accumulator already holds an exact match at confidence 1. -/
def ScoreExact (b : Option BestMatch) : Prop :=
  ∃ m, b = some m ∧ m.confidence = 1 ∧ m.matchType = MatchType.exactM

theorem updateIfBetter_WF {b : Option BestMatch} {cand : BestMatch} (hb : ScoreWF b)
    (hc1 : cand.confidence ≤ 1)
    (hc2 : cand.confidence = 1 → cand.matchType = MatchType.exactM) :
    ScoreWF (updateIfBetter b cand) := by
  intro m hm
  cases b with
  | none =>
    rw [updateIfBetter] at hm
    cases hm
    exact ⟨hc1, hc2⟩
  | some b0 =>
    rw [updateIfBetter] at hm
    split at hm
    · cases hm
      exact ⟨hc1, hc2⟩
    · cases hm
      exact hb _ rfl

theorem updateIfBetter_keeps {b0 cand : BestMatch} (h1 : b0.confidence = 1)
    (hc : cand.confidence ≤ 1) : updateIfBetter (some b0) cand = some b0 := by
  rw [updateIfBetter, if_neg]
  rw [h1]
  exact not_lt.mpr hc

theorem similarityStep_WF (normalized : String) {b : Option BestMatch}
    (f : SchemaField) (hb : ScoreWF b) : ScoreWF (similarityStep normalized b f) := by
  unfold similarityStep
  dsimp only []
  split
  · refine updateIfBetter_WF hb ?_ ?_
    · exact le_trans (min_le_right _ _) (by norm_num)
    · intro h1
      exfalso
      have hle := min_le_right ((f.aliases.map
        (fun a => diceCoefficient normalized (normalizeHeader a))).foldl max
          (max (diceCoefficient normalized (normalizeHeader f.key))
            (diceCoefficient normalized (normalizeHeader f.label)))) (0.9 : ℚ)
      rw [show (⟨f.key, min ((f.aliases.map
        (fun a => diceCoefficient normalized (normalizeHeader a))).foldl max
          (max (diceCoefficient normalized (normalizeHeader f.key))
            (diceCoefficient normalized (normalizeHeader f.label)))) 0.9,
          MatchType.similarity⟩ : BestMatch).confidence = min ((f.aliases.map
        (fun a => diceCoefficient normalized (normalizeHeader a))).foldl max
          (max (diceCoefficient normalized (normalizeHeader f.key))
            (diceCoefficient normalized (normalizeHeader f.label)))) 0.9 from rfl] at h1
      rw [h1] at hle
      norm_num at hle
  · exact hb

theorem patternStep_WF (sampleRows : List RawRow) (csvHeader : String)
    {b1 : Option BestMatch} (f : SchemaField) (hb1 : ScoreWF b1) :
    ScoreWF (patternStep sampleRows csvHeader b1 f) := by
  unfold patternStep
  cases f.samplePattern with
  | none => exact hb1
  | some p =>
    dsimp only []
    split
    · refine updateIfBetter_WF hb1 ?_ ?_
      · exact le_trans (checkSamplePattern_le _ _ _) (by norm_num)
      · intro h1
        exfalso
        have hle := checkSamplePattern_le sampleRows csvHeader p
        rw [show (⟨f.key, checkSamplePattern sampleRows csvHeader p,
            MatchType.pattern⟩ : BestMatch).confidence =
            checkSamplePattern sampleRows csvHeader p from rfl] at h1
        rw [h1] at hle
        norm_num at hle
    · exact hb1

theorem scoreField_WF (sampleRows : List RawRow) (csvHeader normalized : String)
    {b : Option BestMatch} (f : SchemaField) (hb : ScoreWF b) :
    ScoreWF (scoreHeaderAgainstField sampleRows csvHeader normalized b f) := by
  unfold scoreHeaderAgainstField
  dsimp only []
  split
  · refine updateIfBetter_WF hb ?_ ?_
    · norm_num
    · intro _
      rfl
  · split
    · refine updateIfBetter_WF hb (by norm_num) ?_
      intro h1
      exfalso
      norm_num at h1
    · exact patternStep_WF sampleRows csvHeader f (similarityStep_WF normalized f hb)

theorem similarityStep_keeps (normalized : String) {m : BestMatch}
    (f : SchemaField) (h1 : m.confidence = 1) :
    similarityStep normalized (some m) f = some m := by
  unfold similarityStep
  dsimp only []
  split
  · exact updateIfBetter_keeps h1 (le_trans (min_le_right _ _) (by norm_num))
  · rfl

theorem patternStep_keeps (sampleRows : List RawRow) (csvHeader : String)
    {m : BestMatch} (f : SchemaField) (h1 : m.confidence = 1) :
    patternStep sampleRows csvHeader (some m) f = some m := by
  unfold patternStep
  cases f.samplePattern with
  | none => rfl
  | some p =>
    dsimp only []
    split
    · exact updateIfBetter_keeps h1 (le_trans (checkSamplePattern_le _ _ _) (by norm_num))
    · rfl

theorem scoreField_keeps_exact (sampleRows : List RawRow) (csvHeader normalized : String)
    {b : Option BestMatch} (f : SchemaField) (hb : ScoreExact b) :
    scoreHeaderAgainstField sampleRows csvHeader normalized b f = b := by
  obtain ⟨m, hbm, h1, _⟩ := hb
  subst hbm
  unfold scoreHeaderAgainstField
  dsimp only []
  split
  · exact updateIfBetter_keeps h1 (by norm_num)
  · split
    · exact updateIfBetter_keeps h1 (by norm_num)
    · rw [similarityStep_keeps normalized f h1, patternStep_keeps sampleRows csvHeader f h1]

theorem scoreField_exact (sampleRows : List RawRow) (csvHeader normalized : String)
    {b : Option BestMatch} (f : SchemaField) (hb : ScoreWF b)
    (hex : normalized = normalizeHeader f.key ∨ normalized = normalizeHeader f.label) :
    ScoreExact (scoreHeaderAgainstField sampleRows csvHeader normalized b f) := by
  unfold scoreHeaderAgainstField
  rw [if_pos hex]
  cases b with
  | none => exact Exists.intro ⟨f.key, 1, MatchType.exactM⟩ ⟨rfl, rfl, rfl⟩
  | some b0 =>
    rw [updateIfBetter]
    split
    · exact Exists.intro ⟨f.key, 1, MatchType.exactM⟩ ⟨rfl, rfl, rfl⟩
    · rename_i hlt
      have hwf := hb b0 rfl
      have h1 : b0.confidence = 1 :=
        le_antisymm hwf.1 (not_lt.mp (by simpa using hlt))
      exact Exists.intro b0 ⟨rfl, h1, hwf.2 h1⟩

theorem foldl_score_WF (sampleRows : List RawRow) (csvHeader normalized : String) :
    ∀ (fields : List SchemaField) (b : Option BestMatch), ScoreWF b →
      ScoreWF (fields.foldl (scoreHeaderAgainstField sampleRows csvHeader normalized) b) := by
  intro fields
  induction fields with
  | nil => intro b hb; exact hb
  | cons f fs ih =>
    intro b hb
    exact ih _ (scoreField_WF sampleRows csvHeader normalized f hb)

theorem foldl_score_keeps_exact (sampleRows : List RawRow) (csvHeader normalized : String) :
    ∀ (fields : List SchemaField) (b : Option BestMatch), ScoreExact b →
      fields.foldl (scoreHeaderAgainstField sampleRows csvHeader normalized) b = b := by
  intro fields
  induction fields with
  | nil => intro b _; rfl
  | cons f fs ih =>
    intro b hb
    rw [List.foldl_cons, scoreField_keeps_exact sampleRows csvHeader normalized f hb]
    exact ih b hb

theorem bestMatchFor_exact (fields : List SchemaField) (sampleRows : List RawRow)
    (h : String) (f : SchemaField) (hf : f ∈ fields)
    (hex : normalizeHeader h = normalizeHeader f.key ∨
      normalizeHeader h = normalizeHeader f.label) :
    ScoreExact (bestMatchFor fields sampleRows h) := by
  obtain ⟨l1, l2, rfl⟩ := List.append_of_mem hf
  unfold bestMatchFor
  rw [List.foldl_append, List.foldl_cons]
  have hwf1 : ScoreWF (l1.foldl (scoreHeaderAgainstField sampleRows h (normalizeHeader h))
      Option.none) :=
    foldl_score_WF sampleRows h (normalizeHeader h) l1 Option.none (fun m hm => by cases hm)
  have hex2 := scoreField_exact sampleRows h (normalizeHeader h) f hwf1 hex
  rw [foldl_score_keeps_exact sampleRows h (normalizeHeader h) l2 _ hex2]
  exact hex2

/-! ## Claim C4 -/

/-- C4 counterexample: with headers [email, Email] both headers normalize to
    the key of the single schema field email and both receive exact matches in
    the scoring pass, but the conflict-resolution pass unmaps the loser, so the
    second suggestion does not carry matchType exact with confidence 1. -/
theorem exact_match_counterexample :
    ¬ ∀ s ∈ generateMappingSuggestions ["email", "Email"] emailOnlySchema [],
        normalizeHeader s.csvHeader = normalizeHeader emailOnlyField.key →
          s.matchType = MatchType.exactM ∧ s.confidence = 1 := by
  with_unfolding_all decide

/-- C4 (amended): for every header position whose header normalizes exactly to
    some schema field key or label, the returned suggestion at that position is
    either an exact match at confidence 1 — never an alias, similarity or
    pattern match, however high another field scores — or the unmapped
    suggestion left when the conflict-resolution pass handed the field to a
    competing header.  The original claim, which promises matchType exact and
    confidence 1 unconditionally, fails on duplicate exact-matching headers. -/
theorem exact_match_or_conflict_unmapped (csvHeaders : List String)
    (schema : SourceSchema) (sampleRows : List RawRow) (i : ℕ)
    (hi : i < csvHeaders.length) (f : SchemaField) (hf : f ∈ schema.fields)
    (hex : normalizeHeader (csvHeaders.getD i "") = normalizeHeader f.key ∨
      normalizeHeader (csvHeaders.getD i "") = normalizeHeader f.label) :
    (let s := (generateMappingSuggestions csvHeaders schema sampleRows).getD i
        ⟨"", Option.none, 0, MatchType.noneM⟩;
     (s.matchType = MatchType.exactM ∧ s.confidence = 1) ∨
     (s.schemaField = Option.none ∧ s.confidence = 0 ∧
       s.matchType = MatchType.noneM)) := by
  dsimp only []
  obtain ⟨hndF, hVP, _⟩ := resolvePass_props
    (firstPass (stableSort requiredFirstPrec schema.fields) sampleRows csvHeaders)
    (firstPass_nodup _ _ _)
  have hmem : csvHeaders.getD i "" ∈ csvHeaders := by
    rw [List.getD_eq_getElem _ _ hi]
    exact List.getElem_mem _
  have hstep : (generateMappingSuggestions csvHeaders schema sampleRows).getD i
      ⟨"", Option.none, 0, MatchType.noneM⟩ =
      match alistGet (resolvePass (firstPass (stableSort requiredFirstPrec schema.fields)
          sampleRows csvHeaders)) (csvHeaders.getD i "") with
      | some m => ⟨csvHeaders.getD i "", some m.field, m.confidence, m.matchType⟩
      | Option.none => ⟨csvHeaders.getD i "", Option.none, 0, MatchType.noneM⟩ := by
    have hlen : i < (buildSuggestions csvHeaders
        (resolvePass (firstPass (stableSort requiredFirstPrec schema.fields)
          sampleRows csvHeaders))).length := by
      unfold buildSuggestions
      rw [List.length_map]
      exact hi
    show (buildSuggestions csvHeaders
      (resolvePass (firstPass (stableSort requiredFirstPrec schema.fields)
        sampleRows csvHeaders))).getD i ⟨"", Option.none, 0, MatchType.noneM⟩ = _
    rw [List.getD_eq_getElem _ _ hlen]
    unfold buildSuggestions
    rw [List.getElem_map, List.getD_eq_getElem _ _ hi]
  rw [hstep]
  cases hg : alistGet (resolvePass (firstPass (stableSort requiredFirstPrec schema.fields)
      sampleRows csvHeaders)) (csvHeaders.getD i "") with
  | none => exact Or.inr ⟨rfl, rfl, rfl⟩
  | some m =>
    refine Or.inl ?_
    have hpm : (csvHeaders.getD i "", m) ∈ firstPass
        (stableSort requiredFirstPrec schema.fields) sampleRows csvHeaders := hVP _ _ hg
    have hfg : alistGet (firstPass (stableSort requiredFirstPrec schema.fields)
        sampleRows csvHeaders) (csvHeaders.getD i "") = some m :=
      alistGet_of_mem (firstPass_nodup _ _ _) hpm
    rw [firstPass_get _ _ _ _ hmem] at hfg
    have hex2 : ScoreExact (bestMatchFor (stableSort requiredFirstPrec schema.fields)
        sampleRows (csvHeaders.getD i "")) :=
      bestMatchFor_exact _ sampleRows _ f
        ((stableSort_perm requiredFirstPrec schema.fields).mem_iff.mpr hf) hex
    rcases hex2 with ⟨m0, hm0, h1, hmt⟩
    rw [hfg] at hm0
    injection hm0 with hmm
    subst hmm
    exact ⟨hmt, h1⟩

/-- Closed witness for the C4 theorem: the lone header email against the
    one-field schema keyed email is an exact match at confidence 1. -/
theorem exact_match_or_conflict_unmapped_witness :
    (0 < (["email"] : List String).length ∧ emailOnlyField ∈ emailOnlySchema.fields ∧
      normalizeHeader ((["email"] : List String).getD 0 "") =
        normalizeHeader emailOnlyField.key) ∧
    (let s := (generateMappingSuggestions ["email"] emailOnlySchema []).getD 0
        ⟨"", Option.none, 0, MatchType.noneM⟩;
     (s.matchType = MatchType.exactM ∧ s.confidence = 1) ∨
     (s.schemaField = Option.none ∧ s.confidence = 0 ∧
       s.matchType = MatchType.noneM)) :=
  ⟨⟨by decide, List.mem_singleton.mpr rfl, rfl⟩,
    exact_match_or_conflict_unmapped ["email"] emailOnlySchema [] 0 (by decide)
      emailOnlyField (List.mem_singleton.mpr rfl) (Or.inl rfl)⟩

/-! ## Claim C9 -/

/-- Proof machinery for the field-order claim: merge the candidate produced by
    one field (scored from an empty accumulator) into the running best. -/
def updOpt (b : Option BestMatch) : Option BestMatch → Option BestMatch
  | Option.none => b
  | some c => updateIfBetter b c

theorem updOpt_none_left (o : Option BestMatch) : updOpt Option.none o = o := by
  cases o with
  | none => rfl
  | some c => rfl

theorem updOpt_some (b : Option BestMatch) (c : BestMatch) :
    updOpt b (some c) = updateIfBetter b c := rfl

theorem updateIfBetter_some (b0 c : BestMatch) :
    updateIfBetter (some b0) c =
      if b0.confidence < c.confidence then some c else some b0 := rfl

theorem updateIfBetter_updOpt (b o : Option BestMatch) (c : BestMatch) :
    updateIfBetter (updOpt b o) c = updOpt b (updateIfBetter o c) := by
  cases o with
  | none => rfl
  | some s =>
    cases b with
    | none =>
      rw [show updOpt Option.none (some s) = some s from rfl, updOpt_none_left]
    | some b0 =>
      rw [show updOpt (some b0) (some s) =
          if b0.confidence < s.confidence then some s else some b0 from rfl,
        updateIfBetter_some s c]
      by_cases h1 : b0.confidence < s.confidence
      · by_cases h2 : s.confidence < c.confidence
        · rw [if_pos h1, if_pos h2, updOpt_some, updateIfBetter_some s c,
            updateIfBetter_some b0 c, if_pos h2, if_pos (lt_trans h1 h2)]
        · rw [if_pos h1, if_neg h2, updOpt_some, updateIfBetter_some s c,
            updateIfBetter_some b0 s, if_neg h2, if_pos h1]
      · by_cases h2 : s.confidence < c.confidence
        · rw [if_neg h1, if_pos h2, updOpt_some]
        · rw [if_neg h1, if_neg h2, updOpt_some, updateIfBetter_some b0 c,
            updateIfBetter_some b0 s, if_neg h1,
            if_neg (not_lt.mpr (le_trans (not_lt.mp h2) (not_lt.mp h1)))]

theorem updateIfBetter_pair_comm {c1 c2 : BestMatch}
    (hne : c1.confidence ≠ c2.confidence) :
    updateIfBetter (some c1) c2 = updateIfBetter (some c2) c1 := by
  rw [updateIfBetter_some, updateIfBetter_some]
  rcases lt_or_gt_of_ne hne with h | h
  · rw [if_pos h, if_neg (not_lt.mpr (le_of_lt h))]
  · rw [if_neg (not_lt.mpr (le_of_lt h)), if_pos h]

theorem updateIfBetter_comm (z : Option BestMatch) {c1 c2 : BestMatch}
    (hne : c1.confidence ≠ c2.confidence) :
    updateIfBetter (updateIfBetter z c1) c2 = updateIfBetter (updateIfBetter z c2) c1 := by
  rw [show updateIfBetter z c1 = updOpt z (some c1) from rfl,
    show updateIfBetter z c2 = updOpt z (some c2) from rfl,
    updateIfBetter_updOpt, updateIfBetter_updOpt, updateIfBetter_pair_comm hne]

theorem updOpt_comm {x y : Option BestMatch}
    (hxy : ∀ c1 c2, x = some c1 → y = some c2 → c1.confidence ≠ c2.confidence)
    (z : Option BestMatch) :
    updOpt (updOpt z x) y = updOpt (updOpt z y) x := by
  cases x with
  | none => rfl
  | some c1 =>
    cases y with
    | none => rfl
    | some c2 =>
      rw [updOpt_some, updOpt_some, updOpt_some, updOpt_some]
      exact updateIfBetter_comm z (hxy c1 c2 rfl rfl)

theorem similarityStep_updOpt (normalized : String) (b : Option BestMatch)
    (f : SchemaField) :
    similarityStep normalized b f = updOpt b (similarityStep normalized Option.none f) := by
  unfold similarityStep
  dsimp only []
  split
  · rfl
  · rfl

theorem patternStep_updOpt (sampleRows : List RawRow) (csvHeader : String)
    (b o : Option BestMatch) (f : SchemaField) :
    patternStep sampleRows csvHeader (updOpt b o) f =
      updOpt b (patternStep sampleRows csvHeader o f) := by
  unfold patternStep
  cases f.samplePattern with
  | none => rfl
  | some p =>
    dsimp only []
    split
    · exact updateIfBetter_updOpt b o
        ⟨f.key, checkSamplePattern sampleRows csvHeader p, MatchType.pattern⟩
    · rfl

theorem scoreField_updOpt (sampleRows : List RawRow) (csvHeader normalized : String)
    (b : Option BestMatch) (f : SchemaField) :
    scoreHeaderAgainstField sampleRows csvHeader normalized b f =
      updOpt b (scoreHeaderAgainstField sampleRows csvHeader normalized Option.none f) := by
  unfold scoreHeaderAgainstField
  dsimp only []
  split
  · rfl
  · split
    · rfl
    · rw [similarityStep_updOpt normalized b f]
      exact patternStep_updOpt sampleRows csvHeader b
        (similarityStep normalized Option.none f) f

theorem foldl_updOpt_eq (flds : List SchemaField) (sampleRows : List RawRow)
    (csvHeader normalized : String) :
    ∀ b : Option BestMatch,
      flds.foldl (scoreHeaderAgainstField sampleRows csvHeader normalized) b =
      (flds.map (fun f => scoreHeaderAgainstField sampleRows csvHeader normalized
        Option.none f)).foldl updOpt b := by
  induction flds with
  | nil => intro b; rfl
  | cons f fs ih =>
    intro b
    rw [List.foldl_cons, List.map_cons, List.foldl_cons, ih,
      scoreField_updOpt sampleRows csvHeader normalized b f]

theorem bestMatchFor_perm (flds1 flds2 : List SchemaField) (sampleRows : List RawRow)
    (h : String) (hperm : flds1.Perm flds2)
    (hdist : ((flds2.map (fun f => scoreHeaderAgainstField sampleRows h
        (normalizeHeader h) Option.none f)).filterMap id).Pairwise
      (fun x y => x.confidence ≠ y.confidence)) :
    bestMatchFor flds1 sampleRows h = bestMatchFor flds2 sampleRows h := by
  unfold bestMatchFor
  rw [foldl_updOpt_eq, foldl_updOpt_eq]
  refine List.Perm.foldl_eq'
    (hperm.map (fun f => scoreHeaderAgainstField sampleRows h (normalizeHeader h)
      Option.none f)) ?_ Option.none
  intro x hx y hy z
  by_cases hxy : x = y
  · subst hxy
    rfl
  · refine updOpt_comm ?_ z
    intro c1 c2 hx1 hy1
    have hpm := hperm.map (fun f => scoreHeaderAgainstField sampleRows h
      (normalizeHeader h) Option.none f)
    have hc1 : c1 ∈ (flds2.map (fun f => scoreHeaderAgainstField sampleRows h
        (normalizeHeader h) Option.none f)).filterMap id :=
      List.mem_filterMap.mpr ⟨x, hpm.mem_iff.mp hx, hx1⟩
    have hc2 : c2 ∈ (flds2.map (fun f => scoreHeaderAgainstField sampleRows h
        (normalizeHeader h) Option.none f)).filterMap id :=
      List.mem_filterMap.mpr ⟨y, hpm.mem_iff.mp hy, hy1⟩
    have hne12 : c1 ≠ c2 := by
      intro hEq
      exact hxy (by rw [hx1, hy1, hEq])
    exact List.Pairwise.forall (fun _ _ hab => Ne.symm hab) hdist hc1 hc2 hne12

theorem firstPass_congr (flds1 flds2 : List SchemaField) (sampleRows : List RawRow)
    (csvHeaders : List String)
    (hbm : ∀ h ∈ csvHeaders, bestMatchFor flds1 sampleRows h =
      bestMatchFor flds2 sampleRows h) :
    firstPass flds1 sampleRows csvHeaders = firstPass flds2 sampleRows csvHeaders := by
  unfold firstPass
  suffices hgen : ∀ (headers : List String),
      (∀ h ∈ headers, bestMatchFor flds1 sampleRows h = bestMatchFor flds2 sampleRows h) →
      ∀ acc : List (String × BestMatch),
      headers.foldl (fun hs h => match bestMatchFor flds1 sampleRows h with
        | Option.none => hs
        | some m => alistSet hs h m) acc =
      headers.foldl (fun hs h => match bestMatchFor flds2 sampleRows h with
        | Option.none => hs
        | some m => alistSet hs h m) acc by
    exact hgen csvHeaders hbm []
  intro headers
  induction headers with
  | nil => intro _ acc; rfl
  | cons hd tl ih =>
    intro hall acc
    rw [List.foldl_cons, List.foldl_cons, hall hd (List.mem_cons_self _ _)]
    exact ih (fun h hh => hall h (List.mem_cons_of_mem _ hh)) _

/-- Two fields tying at confidence 1 on the header name: an optional field
    keyed name and a required field keyed fullname whose label is name. -/
def orderDemoSchema : SourceSchema :=
  ⟨"stripe", "Stripe",
   [⟨"name", "name", FieldType.text, false, [], Option.none, Option.none⟩,
    ⟨"fullname", "name", FieldType.text, true, [], Option.none, Option.none⟩],
   "id", "email", "name"⟩

/-- C9 counterexample: the header name exactly matches both fields of
    orderDemoSchema at confidence 1, and the tie is broken by whichever field
    is scored first, so the required-first sort changes the matched field. -/
theorem mapping_order_counterexample :
    generateMappingSuggestions ["name"] orderDemoSchema [] ≠
      generateMappingSuggestionsDeclaredOrder ["name"] orderDemoSchema [] := by
  with_unfolding_all decide

/-- C9 (amended to tie-free inputs): when, for every header, the per-field
    candidate scores carry pairwise distinct confidences, the suggestions are
    identical whether the schema fields are evaluated in declared order or
    sorted required-first.  On a confidence tie the first field scored wins, so
    the sort can change the matched field and the claim fails unconditionally. -/
theorem mapping_field_order_irrelevant (csvHeaders : List String)
    (schema : SourceSchema) (sampleRows : List RawRow)
    (hdist : ∀ h ∈ csvHeaders,
      ((schema.fields.map (fun f => scoreHeaderAgainstField sampleRows h
          (normalizeHeader h) Option.none f)).filterMap id).Pairwise
        (fun x y => x.confidence ≠ y.confidence)) :
    generateMappingSuggestions csvHeaders schema sampleRows =
      generateMappingSuggestionsDeclaredOrder csvHeaders schema sampleRows := by
  unfold generateMappingSuggestions generateMappingSuggestionsDeclaredOrder
    generateMappingSuggestionsCore
  rw [firstPass_congr (stableSort requiredFirstPrec schema.fields) schema.fields
    sampleRows csvHeaders (fun h hh => bestMatchFor_perm _ _ sampleRows h
      (stableSort_perm requiredFirstPrec schema.fields) (hdist h hh))]

/-- Closed witness for the C9 theorem: the lone header email scores only one
    candidate against the one-field schema, so the distinctness hypothesis
    holds and both field orders return the same suggestions. -/
theorem mapping_field_order_irrelevant_witness :
    (∀ h ∈ (["email"] : List String),
      ((emailOnlySchema.fields.map (fun f => scoreHeaderAgainstField [] h
          (normalizeHeader h) Option.none f)).filterMap id).Pairwise
        (fun x y => x.confidence ≠ y.confidence)) ∧
    generateMappingSuggestions ["email"] emailOnlySchema [] =
      generateMappingSuggestionsDeclaredOrder ["email"] emailOnlySchema [] :=
  ⟨by with_unfolding_all decide,
    mapping_field_order_irrelevant ["email"] emailOnlySchema []
      (by with_unfolding_all decide)⟩

end TailorLoom
